import Mathlib

/-!
Verification development for the Finance_v1-0 receipt pipeline.

The Python sources are shallowly embedded:

* strings are `String` / `List Char`, with the Python regex searches of the
  extractors implemented as explicit first-match scanners on `List Char`,
  faithful to Python `re` semantics (leftmost match, greedy quantifiers with
  the backtracking the concrete patterns need, `\b` word boundaries);
* `decimal.Decimal` values that flow through the amount extractors are exact
  decimals with at most two fractional digits; they are represented by their
  integer number of cents (`Nat`), so `> 0` means cents `> 0` and
  `> 10,000,000` means cents `> 1,000,000,000`;
* `None` / "empty string result" of the extractors is `Option.none`;
* the pandas DataFrame of the ledger is a column list plus rows of cells.

Word-character / letter / digit classes are the ASCII ones; every input a
claim quantifies over is ASCII.
-/

namespace Finance

/-- Python `\s` class (`str.strip` whitespace) restricted to the ASCII range
that the receipts use. -/
def pySpace (c : Char) : Bool :=
  c = ' ' || c = '\t' || c = '\n' || c = '\r' || c = '\x0b' || c = '\x0c'

/-- Python `\w` word-character test (ASCII scope): letters, digits, underscore. -/
def isWordChar (c : Char) : Bool := c.isAlphanum || c = '_'

/-- Word-character test for an optional preceding character; `none` stands for
the start of the string, which is not a word character. -/
def prevIsWord : Option Char → Bool
  | none => false
  | some c => isWordChar c

/-- A `\b` boundary holds after the end of a match when the next character is
not a word character (or the string ends). -/
def endBoundary : List Char → Bool
  | [] => true
  | c :: _ => !isWordChar c

/-- Maximal run of decimal digits: returns the run and the rest. -/
def digitRun : List Char → List Char × List Char
  | [] => ([], [])
  | c :: rest =>
    if c.isDigit then
      let (d, r) := digitRun rest
      (c :: d, r)
    else ([], c :: rest)

/-- Numeric value of a list of ASCII digits, as Python `int` reads it. -/
def digitsToNat (ds : List Char) : Nat :=
  ds.foldl (fun a c => a * 10 + (c.toNat - 48)) 0

/-- Maximal run of `,ddd` groups (the `(?:,\d{3})*` part of the money
patterns): returns the consumed characters and the rest. -/
def commaGroups : List Char → List Char × List Char
  | ',' :: a :: b :: c :: rest =>
    if a.isDigit && b.isDigit && c.isDigit then
      let (g, r) := commaGroups rest
      (',' :: a :: b :: c :: g, r)
    else ([], ',' :: a :: b :: c :: rest)
  | s => ([], s)

/-- The mandatory `\.\d{2}` fraction of the money patterns. -/
def fracTwo : List Char → Option (List Char × List Char)
  | '.' :: a :: b :: rest =>
    if a.isDigit && b.isDigit then some (['.', a, b], rest) else none
  | _ => none

/-- Python `f"{n:02d}"`. -/
def pad2 (n : Nat) : String := if n < 10 then "0" ++ Nat.repr n else Nat.repr n

/-- Lowercase a character list (Python `str.lower`, ASCII scope). -/
def lowerL (s : List Char) : List Char := s.map Char.toLower

/-- Python `str.strip`. -/
def stripL (s : List Char) : List Char :=
  ((s.dropWhile pySpace).reverse.dropWhile pySpace).reverse

/-- Python `needle == hay[:len(needle)]` test used by the substring scan. -/
def startsWithL : List Char → List Char → Bool
  | _, [] => true
  | [], _ :: _ => false
  | c :: hs, d :: ns => c = d && startsWithL hs ns

/-- Python `needle in hay` substring test. -/
def containsL (hay needle : List Char) : Bool :=
  startsWithL hay needle ||
    match hay with
    | [] => false
    | _ :: rest => containsL rest needle

/-- Python `hay.endswith(needle)`. -/
def endsWithL (hay needle : List Char) : Bool :=
  startsWithL (hay.reverse) (needle.reverse)

/-- Decimal value in cents of a money token, mirroring
`Decimal(token.replace(",", ""))` on the token shapes the extractors produce:
a digit string with optional comma grouping, optionally followed by a
two-digit fraction.  (On such tokens `quantize(Decimal("0.01"), ROUND_HALF_UP)`
is the identity.)  Other shapes yield `none`, as the callers' exception
handlers do. -/
def parseCents (tok : List Char) : Option Nat :=
  let cleaned := tok.filter (fun c => c ≠ ',')
  let (ip, r) := digitRun cleaned
  match r with
  | [] => if ip.isEmpty then none else some (digitsToNat ip * 100)
  | '.' :: fr =>
    let (fd, r2) := digitRun fr
    if ip.isEmpty then none
    else if r2.isEmpty && fd.length = 2 then some (digitsToNat ip * 100 + digitsToNat fd)
    else none
  | _ => none

end Finance

namespace Finance.SciptsAmount

/-!
Embedding of `src/scripts/image-scipts/amount_extractor.py`, the amount
extractor module the pipeline actually loads (`EXTRACTOR_AMOUNT_PATH`).

`AMOUNT_RE = \b\d{1,3}(?:,\d{3})*(?:\.\d{2})\b|\b\d+(?:\.\d{2})\b`
-/

open Finance

/-- One attempt of the first alternative of `AMOUNT_RE` starting from a given
digit prefix: comma groups, then the mandatory two-digit fraction, then `\b`. -/
def branch1With (ds rest : List Char) : Option (List Char × List Char) :=
  let (g, r) := commaGroups rest
  match fracTwo r with
  | some (f, r2) => if endBoundary r2 then some (ds ++ g ++ f, r2) else none
  | none => none

/-- First alternative of `AMOUNT_RE` at the current position (the leading `\b`
is checked by the caller): `\d{1,3}` greedily tries three, two then one leading
digits. -/
def branch1 : List Char → Option (List Char × List Char)
  | a :: b :: c :: rest =>
    if a.isDigit && b.isDigit && c.isDigit then
      branch1With [a, b, c] rest <|> branch1With [a, b] (c :: rest) <|>
        branch1With [a] (b :: c :: rest)
    else if a.isDigit && b.isDigit then
      branch1With [a, b] (c :: rest) <|> branch1With [a] (b :: c :: rest)
    else if a.isDigit then branch1With [a] (b :: c :: rest)
    else none
  | [a, b] =>
    if a.isDigit && b.isDigit then branch1With [a, b] [] <|> branch1With [a] [b]
    else if a.isDigit then branch1With [a] [b]
    else none
  | [a] => if a.isDigit then branch1With [a] [] else none
  | [] => none

/-- Second alternative of `AMOUNT_RE`: `\d+` (maximal; a shorter run would put
a digit where `\.` must match) then `\.\d{2}` then `\b`. -/
def branch2 (s : List Char) : Option (List Char × List Char) :=
  match digitRun s with
  | ([], _) => none
  | (ds, r) =>
    match fracTwo r with
    | some (f, r2) => if endBoundary r2 then some (ds ++ f, r2) else none
    | none => none

/-- One `AMOUNT_RE` match attempt at the current position: the leading `\b`
requires the previous character to be a non-word character (both alternatives
start with a digit, a word character). -/
def amountTryAt (prev : Option Char) (s : List Char) : Option (List Char × List Char) :=
  if prevIsWord prev then none else branch1 s <|> branch2 s

/-- `AMOUNT_RE.findall`: leftmost non-overlapping matches; the fuel is an
upper bound on the number of scanning steps (each step either consumes a match
of at least four characters or advances one position). -/
def findallGo : Nat → Option Char → List Char → List (List Char)
  | 0, _, _ => []
  | fuel + 1, prev, s =>
    match amountTryAt prev s with
    | some (tok, rest) => tok :: findallGo fuel (some (tok.getLastD '0')) rest
    | none =>
      match s with
      | [] => []
      | c :: rest => findallGo fuel (some c) rest

/-- All `AMOUNT_RE` matches of a string. -/
def findallAmount (s : List Char) : List (List Char) :=
  findallGo (s.length + 1) none s

/-- The body of the `for raw in matches` loop of `extract_amount`: parse a
match and keep it only when strictly positive (`if amt > 0`). -/
def keepPos (tok : List Char) : Option Nat :=
  match parseCents tok with
  | some c => if 0 < c then some c else none
  | none => none

/-- `extract_amount`: parse every match, keep the strictly positive ones,
and return the largest (`float(max(amounts))`), in cents. -/
def extract_amount (text : String) : Option Nat :=
  if text = "" then none
  else
    match (findallAmount text.data).filterMap keepPos with
    | [] => none
    | a :: rest => some (rest.foldl Nat.max a)

/-- `extract`: the module-level entry point the pipeline calls.  The `lines`
argument is accepted and ignored, exactly as in the source; `none` for the
amount models the `""` the Python dict carries. -/
def extract (_imagePath : String) (text : String) (_lines : Option (List String)) :
    Option Nat :=
  extract_amount text

end Finance.SciptsAmount

namespace Finance.BruteAmount

/-!
Embedding of `src/scripts/image-scripts/amount_extractor.py`, the
"simple brute-force" amount extractor (two strategies: amount-label-anchored
scan, then largest reasonable amount).

`simple_pattern = \d+(?:,\d{3})*(?:\.\d{2})?`
-/

open Finance

/-- One `simple_pattern` match attempt: maximal `\d+`, maximal comma groups,
then the optional two-digit fraction (no word boundaries in this pattern; a
shorter digit run would put a digit where `\.` must match, so maximal munch is
faithful). -/
def simpleTry (s : List Char) : Option (List Char × List Char) :=
  match digitRun s with
  | ([], _) => none
  | (ds, r) =>
    let (g, r2) := commaGroups r
    match fracTwo r2 with
    | some (f, r3) => some (ds ++ g ++ f, r3)
    | none => some (ds ++ g, r2)

/-- `re.findall(simple_pattern, ...)`: leftmost non-overlapping matches. -/
def simpleFindGo : Nat → List Char → List (List Char)
  | 0, _ => []
  | fuel + 1, s =>
    match simpleTry s with
    | some (tok, rest) => tok :: simpleFindGo fuel rest
    | none =>
      match s with
      | [] => []
      | _ :: rest => simpleFindGo fuel rest

/-- The token after the last `.` — Python `match.split(".")[-1]`. -/
def afterLastDot (t : List Char) : List Char :=
  (t.reverse.takeWhile (fun c => c ≠ '.')).reverse

/-- The skip tests of `extract_numbers_from_text`: reference-shaped numbers
(more than six digits, no decimal point) and wrong-width fractions are
dropped. -/
def keepNumber (t : List Char) : Bool :=
  if !t.contains '.' && (t.filter (fun c => c ≠ ',')).length > 6 then false
  else if t.contains '.' && (afterLastDot t).length ≠ 2 then false
  else true

/-- `extract_numbers_from_text`. -/
def extract_numbers_from_text (text : String) : List (List Char) :=
  if text = "" then []
  else (simpleFindGo (text.data.length + 1) text.data).filter keepNumber

/-- Insert thousands separators into a reversed digit list. -/
def commifyRev : List Char → List Char
  | a :: b :: c :: d :: rest => a :: b :: c :: ',' :: commifyRev (d :: rest)
  | l => l

/-- Python `f"{decimal:,.2f}"` on a non-negative two-decimal value given in
cents. -/
def formatMoney (cents : Nat) : String :=
  ⟨(commifyRev (Nat.repr (cents / 100)).data.reverse).reverse⟩ ++ "." ++ pad2 (cents % 100)

/-- `clean_amount`: strip commas, read as a decimal, reject non-positive or
greater than 10,000,000 (in cents: 1,000,000,000), re-render with thousands
separators and two decimals. -/
def clean_amount (s : List Char) : Option String :=
  if s.isEmpty then none
  else
    match parseCents s with
    | none => none
    | some c => if c = 0 || 1000000000 < c then none else some (formatMoney c)

/-- The inner `for num in numbers` loop of `find_amount_near_amount_label`,
including the special handling of numbers attached to `THB`. -/
def tryNums (searchLine : List Char) : List (List Char) → Option String
  | [] => none
  | num :: rest =>
    match (if endsWithL searchLine ['T', 'H', 'B'] && !(endsWithL num ['T', 'H', 'B']) &&
              containsL searchLine (num ++ ['T', 'H', 'B'])
           then clean_amount num else none) with
    | some cl => some cl
    | none =>
      match clean_amount num with
      | some cl => some cl
      | none => tryNums searchLine rest

/-- The `for j, search_line in enumerate(search_lines)` loop. -/
def scanSearchLines : List String → Option String
  | [] => none
  | ln :: rest =>
    match tryNums ln.data (extract_numbers_from_text ln) with
    | some c => some c
    | none => scanSearchLines rest

/-- The outer label loop of `find_amount_near_amount_label`: at each line
whose lowercased, stripped text contains `"amount"`, scan that line and the
next three. -/
def nearLabelGo : List String → Option String
  | [] => none
  | ln :: rest =>
    if containsL (stripL (lowerL ln.data)) ['a', 'm', 'o', 'u', 'n', 't'] then
      match scanSearchLines ((ln :: rest).take 4) with
      | some c => some c
      | none => nearLabelGo rest
    else nearLabelGo rest

/-- `find_amount_near_amount_label`. -/
def find_amount_near_amount_label (lines : List String) : Option String :=
  if lines = [] then none else nearLabelGo lines

/-- The best-candidate fold of `find_largest_reasonable_amount`
(`best_decimal` starts at 0, strict improvement only). -/
def findLargestGo : List (List Char) → Option String → Nat → Option String
  | [], best, _ => best
  | num :: rest, best, bestC =>
    match clean_amount num with
    | none => findLargestGo rest best bestC
    | some cl =>
      match parseCents cl.data with
      | none => findLargestGo rest best bestC
      | some v =>
        if bestC < v then findLargestGo rest (some cl) v else findLargestGo rest best bestC

/-- `find_largest_reasonable_amount`: all numbers of
`text + " " + " ".join(lines)` folded through the best-candidate loop. -/
def find_largest_reasonable_amount (text : String) (lines : List String) : Option String :=
  if text = "" && lines = [] then none
  else
    findLargestGo
      (extract_numbers_from_text (text ++ " " ++ String.intercalate " " lines)) none 0

/-- The two-strategy body of `extract` after the `lines`/`text` defaulting. -/
def extractCore (text : String) (lines : List String) : Option String :=
  match find_amount_near_amount_label lines with
  | some a => some a
  | none => find_largest_reasonable_amount text lines

/-- `extract`: label-anchored strategy first, then the largest-amount
fallback; `none` models the `""` in the returned dict (`if not lines:
lines = []` makes `None` and `[]` the same). -/
def extract (_imagePath : String) (text : String) (linesArg : Option (List String)) :
    Option String :=
  extractCore text
    (match linesArg with
     | none => []
     | some l => l)

end Finance.BruteAmount

namespace Finance.DateExt

/-!
Embedding of `src/scripts/image-scripts/date_extractor.py`.

```
DATE_RE  = \b(?P<d>\d{1,2})\s+(?P<m>[A-Za-z]{3})\s+(?P<y>\d{2})\b
TIME_RE  = \b(?P<h>[0-2OIl]\d)[:\.](?P<min>[0-5OIl]\d)\b
REF_TS_RE = \b(20\d{12})\d*\b
```
-/

open Finance

/-- The per-character substitutions of `_fix_ocr_digits`
(`O`/`o` to `0`, `I`/`l` to `1`; later replacements never hit the digits the
earlier ones produce, so the composition of the four `str.replace` calls is a
character map). -/
def fixChar (c : Char) : Char :=
  if c = 'O' then '0'
  else if c = 'o' then '0'
  else if c = 'I' then '1'
  else if c = 'l' then '1'
  else c

/-- `_fix_ocr_digits` on a character list. -/
def fixOcr (s : List Char) : List Char := s.map fixChar

/-- The `_MONTH` table. -/
def monthTable : List (List Char × Nat) :=
  [(['j', 'a', 'n'], 1), (['f', 'e', 'b'], 2), (['m', 'a', 'r'], 3),
   (['a', 'p', 'r'], 4), (['m', 'a', 'y'], 5), (['j', 'u', 'n'], 6),
   (['j', 'u', 'l'], 7), (['a', 'u', 'g'], 8), (['s', 'e', 'p'], 9),
   (['o', 'c', 't'], 10), (['n', 'o', 'v'], 11), (['d', 'e', 'c'], 12)]

/-- Dictionary lookup `_MONTH[mname]`. -/
def monthLookup (m : List Char) : Option Nat := monthTable.lookup m

/-- Tail of a `DATE_RE` match attempt: the two year digits and the trailing
`\b`. -/
def dateYear (day mon : List Char) : List Char → Option (List Char × List Char × List Char)
  | y1 :: y2 :: rest =>
    if y1.isDigit && y2.isDigit && endBoundary rest then some (day, mon, [y1, y2])
    else none
  | _ => none

/-- Maximal-munch continuation of the second `\s+` of `DATE_RE` (a shorter run
of spaces would put a space where a digit must match). -/
def dateYearSpGo (day mon : List Char) : List Char → Option (List Char × List Char × List Char)
  | c :: rest => if pySpace c then dateYearSpGo day mon rest else dateYear day mon (c :: rest)
  | [] => none

/-- The second `\s+` of `DATE_RE` (at least one space). -/
def dateYearSp (day mon : List Char) : List Char → Option (List Char × List Char × List Char)
  | c :: rest => if pySpace c then dateYearSpGo day mon rest else none
  | [] => none

/-- The `[A-Za-z]{3}` month group of `DATE_RE`. -/
def dateMonth (day : List Char) : List Char → Option (List Char × List Char × List Char)
  | m1 :: m2 :: m3 :: rest =>
    if m1.isAlpha && m2.isAlpha && m3.isAlpha then dateYearSp day [m1, m2, m3] rest
    else none
  | _ => none

/-- Maximal-munch continuation of the first `\s+` of `DATE_RE` (a shorter run
would put a space where a letter must match). -/
def dateMonthSpGo (day : List Char) : List Char → Option (List Char × List Char × List Char)
  | c :: rest => if pySpace c then dateMonthSpGo day rest else dateMonth day (c :: rest)
  | [] => none

/-- The first `\s+` of `DATE_RE` (at least one space). -/
def dateMonthSp (day : List Char) : List Char → Option (List Char × List Char × List Char)
  | c :: rest => if pySpace c then dateMonthSpGo day rest else none
  | [] => none

/-- A `DATE_RE` match attempt at the current position.  The leading `\b` holds
exactly when the previous character is not a word character (the first matched
character is a digit, hence a word character); the greedy `\d{1,2}` tries two
digits, then backtracks to one. -/
def dateTryAt (prev : Option Char) (s : List Char) : Option (List Char × List Char × List Char) :=
  if prevIsWord prev then none
  else
    match s with
    | c1 :: rest =>
      if c1.isDigit then
        match
          (match rest with
           | c2 :: r2 => if c2.isDigit then dateMonthSp [c1, c2] r2 else none
           | [] => none) with
        | some g => some g
        | none => dateMonthSp [c1] rest
      else none
    | [] => none

/-- `DATE_RE.search`: the leftmost match attempt that succeeds. -/
def dateSearch (prev : Option Char) (s : List Char) :
    Option (List Char × List Char × List Char) :=
  match dateTryAt prev s, s with
  | some g, _ => some g
  | none, [] => none
  | none, c :: rest => dateSearch (some c) rest

/-- The `[0-2OIl]` hour class of `TIME_RE`. -/
def inClassH (c : Char) : Bool :=
  c = '0' || c = '1' || c = '2' || c = 'O' || c = 'I' || c = 'l'

/-- The `[0-5OIl]` minute class of `TIME_RE`. -/
def inClassM (c : Char) : Bool :=
  c = '0' || c = '1' || c = '2' || c = '3' || c = '4' || c = '5' ||
    c = 'O' || c = 'I' || c = 'l'

/-- The `[:\.]` separator class of `TIME_RE`. -/
def isColonDot (c : Char) : Bool := c = ':' || c = '.'

/-- A `TIME_RE` match attempt at the current position (every character of the
hour class is a word character, so the leading `\b` again reduces to the
previous character not being one). -/
def timeTryAt (prev : Option Char) (s : List Char) : Option (List Char × List Char) :=
  match s with
  | c1 :: c2 :: c3 :: c4 :: c5 :: rest =>
    if !prevIsWord prev && inClassH c1 && c2.isDigit && isColonDot c3 &&
        inClassM c4 && c5.isDigit && endBoundary rest then
      some ([c1, c2], [c4, c5])
    else none
  | _ => none

/-- `TIME_RE.search`. -/
def timeSearch (prev : Option Char) (s : List Char) : Option (List Char × List Char) :=
  match timeTryAt prev s, s with
  | some g, _ => some g
  | none, [] => none
  | none, c :: rest => timeSearch (some c) rest

/-- Exactly `n` digits. -/
def takeDigits : Nat → List Char → Option (List Char × List Char)
  | 0, s => some ([], s)
  | n + 1, c :: rest =>
    if c.isDigit then (takeDigits n rest).map (fun p => (c :: p.1, p.2)) else none
  | _ + 1, [] => none

/-- A `REF_TS_RE` match attempt: `20`, twelve digits (the captured group),
then the greedy `\d*` and the trailing `\b` (if the boundary fails after the
maximal digit run it fails after any shorter one, since the following
character would then be a digit). -/
def refTryAt (prev : Option Char) (s : List Char) : Option (List Char) :=
  if prevIsWord prev then none
  else
    match s with
    | '2' :: '0' :: rest =>
      match takeDigits 12 rest with
      | some (ds, r) =>
        let (_, r2) := digitRun r
        if endBoundary r2 then some ('2' :: '0' :: ds) else none
      | none => none
    | _ => none

/-- `REF_TS_RE.search`. -/
def refSearch (prev : Option Char) (s : List Char) : Option (List Char) :=
  match refTryAt prev s, s with
  | some g, _ => some g
  | none, [] => none
  | none, c :: rest => refSearch (some c) rest

/-- `_fmt_date`: `f"{m:02d}/{d:02d}/{y4:d}"` with `y4 = 2000 + y2`. -/
def _fmt_date (d m y2 : Nat) : String :=
  pad2 m ++ "/" ++ pad2 d ++ "/" ++ Nat.repr (2000 + y2)

/-- `_fmt_time` with its defensive clamps. -/
def _fmt_time (h m : Nat) : String :=
  pad2 (max 0 (min h 23)) ++ ":" ++ pad2 (max 0 (min m 59))

/-- `_parse_date_time_from_line`:  OCR-fix the stripped line, search for the
date, look the month up, then search the same fixed line for a time. -/
def _parse_date_time_from_line (line : String) : String × String :=
  let s := fixOcr (stripL line.data)
  match dateSearch none s with
  | none => ("", "")
  | some (day, mon, yy) =>
    match monthLookup (lowerL mon) with
    | none => ("", "")
    | some m =>
      let dateStr := _fmt_date (digitsToNat day) m (digitsToNat yy)
      match timeSearch none s with
      | some (hg, mg) =>
        (dateStr, _fmt_time (digitsToNat (fixOcr hg)) (digitsToNat (fixOcr mg)))
      | none => (dateStr, "")

/-- `_parse_from_reference`: first line with a transaction-reference
timestamp, read positionally as `yyyy mm dd HH MM`. -/
def _parse_from_reference : List String → String × String
  | [] => ("", "")
  | ln :: rest =>
    match refSearch none ln.data with
    | none => _parse_from_reference rest
    | some ts =>
      let y := digitsToNat (ts.take 4)
      let mo := digitsToNat ((ts.drop 4).take 2)
      let d := digitsToNat ((ts.drop 6).take 2)
      let hh := digitsToNat ((ts.drop 8).take 2)
      let mi := digitsToNat ((ts.drop 10).take 2)
      (pad2 mo ++ "/" ++ pad2 d ++ "/" ++ Nat.repr y, _fmt_time hh mi)

/-- Python `str.splitlines` restricted to `\n` separators (the only separator
occurring in the OCR text this models). -/
def splitlines (text : String) : List String :=
  if text = "" then []
  else
    let parts := text.splitOn "\n"
    if parts.getLast? = some "" then parts.dropLast else parts

/-- Pass 1 of `extract`: the first line on which `_parse_date_time_from_line`
finds a date wins. -/
def pass1 : List String → String × String
  | [] => ("", "")
  | ln :: rest =>
    let (ds, ts) := _parse_date_time_from_line ln
    if ds ≠ "" then (ds, ts) else pass1 rest

/-- `extract`: header-line pass, then the transaction-reference fallback
filling only the still-blank fields. -/
def extract (_imagePath : String) (text : String) (linesArg : Option (List String)) :
    String × String :=
  let lines := match linesArg with
    | none => splitlines text
    | some l => l
  let (date1, time1) := pass1 lines
  if date1 = "" || time1 = "" then
    let (ds2, ts2) := _parse_from_reference lines
    (if date1 = "" && ds2 ≠ "" then ds2 else date1,
     if time1 = "" && ts2 ≠ "" then ts2 else time1)
  else (date1, time1)

end Finance.DateExt

namespace Finance.Pipeline

/-!
Embedding of the extractor-loading and per-image extraction steps of
`src/finances_pipeline.py`.

All four `EXTRACTOR_*_PATH` constants point into `scripts/image-scipts/`
(note the spelling).  In the repository that directory contains only
`amount_extractor.py`; `date_extractor.py`, `description_extractor.py` and
`note_extractor.py` live in the differently spelled `scripts/image-scripts/`,
which the pipeline never references.
-/

/-- The files present in the repository directory `scripts/image-scipts/`. -/
def imageSciptsFiles : List String := ["amount_extractor.py"]

/-- `_dynamic_import(HERE / "scripts" / "image-scipts" / f)`: the import
succeeds exactly when the file exists there (`None` otherwise). -/
def moduleLoaded (fileName : String) : Bool := imageSciptsFiles.contains fileName

/-- The module-level callables of the one extractor module that does load,
`scripts/image-scipts/amount_extractor.py`. -/
def amountModuleAttrs : List String := ["extract_amount", "extract"]

/-- The guard `ext_date and hasattr(ext_date, "extract_date_time")`.  The
module file is absent, so `ext_date` is `None` and the `hasattr` test (which
no module of the repository would satisfy: the date extractor defines
`extract`, not `extract_date_time`) is never reached. -/
def dateStepEnabled : Bool := moduleLoaded "date_extractor.py"

/-- The guard `ext_amount and hasattr(ext_amount, "extract")`. -/
def amountStepEnabled : Bool :=
  moduleLoaded "amount_extractor.py" && amountModuleAttrs.contains "extract"

/-- The guard `ext_desc and hasattr(ext_desc, "extract")`. -/
def descStepEnabled : Bool := moduleLoaded "description_extractor.py"

/-- The guard `ext_note and hasattr(ext_note, "extract")`. -/
def noteStepEnabled : Bool := moduleLoaded "note_extractor.py"

/-- Python `str.strip` on a `String`. -/
def stripStr (s : String) : String := ⟨Finance.stripL s.data⟩

/-- The update record `main` assembles for one image before `_upsert`. -/
structure UpdateRecord where
  date : String
  time : String
  thbWithdrawal : Option Nat
  description : String
  note : String
deriving DecidableEq, Repr

/-- The per-image extraction body of `main`: every extractor step runs only
when its module was found and exposes the expected callable.  The amount is
kept in cents; `round(float(val), 2)` is the identity on the two-decimal
values the loaded amount extractor produces.  The description and note steps
never run (their modules are absent from `scripts/image-scipts/`), so those
fields keep their initializers `""` and the `verify`/`veri` sanity filter has
nothing to do. -/
def mainRecord (imgPath text : String) (lines : List String) : UpdateRecord :=
  { date := if dateStepEnabled then stripStr (DateExt.extract imgPath text (some lines)).1
            else ""
    time := if dateStepEnabled then stripStr (DateExt.extract imgPath text (some lines)).2
            else ""
    thbWithdrawal := if amountStepEnabled then SciptsAmount.extract imgPath text (some lines)
                     else none
    description := ""
    note := "" }

end Finance.Pipeline

namespace Finance.Ledger

/-!
Embedding of the ledger layer of `src/finances_pipeline.py` (`_ensure_headers`,
`_finalize_numbers`, `_save_with_excel_format`, `_upsert`).

A DataFrame is a column-name list plus rows of cells aligned with it.  A cell
is empty (`NaN`/`None`/an empty workbook cell), a string, or a number (ℚ; the
binary-float width of pandas numbers is abstracted away — every number that
reaches this layer has at most two decimal digits).  `_upsert` re-reads the
workbook each call; a saved table is re-loaded as itself (string cells, number
cells and empty cells round-trip through the `.xlsx` file).
-/

/-- One DataFrame cell. -/
inductive Cell where
  | empty : Cell
  | str : String → Cell
  | num : ℚ → Cell
deriving DecidableEq, Repr

/-- `HEADERS` of `finances_pipeline.py`. -/
def HEADERS : List String :=
  ["Date", "Time", "THB Withdrawal", "THB Deposit", "USD Amount", "FX rate",
   "Description", "Acct #", "Merchant_ID", "Note", "Sub_Category", "Category",
   "Filename", "Source", "Open File"]

/-- The numeric columns of `_finalize_numbers`. -/
def NUMCOLS : List String := ["THB Withdrawal", "THB Deposit", "USD Amount", "FX rate"]

/-- A DataFrame: ordered columns and rows of cells aligned with them. -/
structure Table where
  cols : List String
  rows : List (List Cell)
deriving DecidableEq, Repr

/-- Position of a column name (`df.columns.get_loc`). -/
def colIdx (cols : List String) (c : String) : Option Nat :=
  cols.findIdx? (fun h => h = c)

/-- Cell of a row at a position; out-of-range reads are empty. -/
def getCell (row : List Cell) (i : Nat) : Cell := row.getD i Cell.empty

/-- Cell of a row under a column name; a missing column reads as empty. -/
def getCellN (cols : List String) (row : List Cell) (c : String) : Cell :=
  match colIdx cols c with
  | some i => getCell row i
  | none => Cell.empty

/-- `_ensure_headers`: add every missing header (as `""` for all rows), then
select exactly `HEADERS` in order (`df[HEADERS]` drops any other column; the
`astype("object")` pass does not change values). -/
def _ensure_headers (t : Table) : Table :=
  ⟨HEADERS,
   t.rows.map fun r => HEADERS.map fun h =>
     match colIdx t.cols h with
     | some i => getCell r i
     | none => Cell.str ""⟩

/-- Python truthiness of a cell (`if fn_val:`); `NaN` is truthy in Python but
an empty workbook cell reads back as `None` in `openpyxl`, and the only
non-string, non-number cells this layer produces are empty ones. -/
def truthy : Cell → Bool
  | .empty => false
  | .str s => s ≠ ""
  | .num q => q ≠ 0

/-- The skip test `v in ("", None)` of `_upsert`. -/
def isBlankVal : Cell → Bool
  | .empty => true
  | .str s => s = ""
  | .num _ => false

/-- `df.at[ridx, k] = v`: write through an existing column, or enlarge the
frame with a new final column (empty for every other row), exactly as the
pandas `.at` setter falls back to `.loc` enlargement for a missing key. -/
def setCellTable (t : Table) (ridx : Nat) (k : String) (v : Cell) : Table :=
  match colIdx t.cols k with
  | some i => ⟨t.cols, t.rows.set ridx ((t.rows.getD ridx []).set i v)⟩
  | none =>
    ⟨t.cols ++ [k],
     (t.rows.map fun r => r ++ [Cell.empty]).set ridx (t.rows.getD ridx [] ++ [v])⟩

/-- The `for k, v in payload.items()` loop of the existing-row branch. -/
def applyPayloadEx (t : Table) (ridx : Nat) : List (String × Cell) → Table
  | [] => t
  | (k, v) :: rest =>
    applyPayloadEx (if isBlankVal v then t else setCellTable t ridx k v) ridx rest

/-- Python-dict insertion: update in place if the key exists, else append. -/
def dictSet (d : List (String × Cell)) (k : String) (v : Cell) : List (String × Cell) :=
  if d.any (fun p => p.1 = k) then d.map fun p => if p.1 = k then (k, v) else p
  else d ++ [(k, v)]

/-- The new-row dict of the insert branch: every header defaulted to `""`,
identity and fixed-value columns set, then the non-blank payload fields. -/
def newRowDict (key : String) (payload : List (String × Cell)) : List (String × Cell) :=
  let base := HEADERS.map fun h => (h, Cell.str "")
  let base := dictSet base "Filename" (Cell.str key)
  let base := dictSet base "Open File" (Cell.str key)
  let base := dictSet base "Source" (Cell.str "Bangkok Bank Receipt")
  payload.foldl (fun d kv => if isBlankVal kv.2 then d else dictSet d kv.1 kv.2) base

/-- `pd.concat([df, pd.DataFrame([row])], ignore_index=True)`: the column
union keeps the frame's order and appends the row's new keys; old rows get
empty cells under the new columns. -/
def concatRow (t : Table) (d : List (String × Cell)) : Table :=
  let extra := (d.map Prod.fst).filter fun k => !t.cols.contains k
  ⟨t.cols ++ extra,
   t.rows.map (fun r => r ++ List.replicate extra.length Cell.empty) ++
     [(t.cols ++ extra).map fun c =>
       match d.lookup c with
       | some v => v
       | none => Cell.empty]⟩

/-- `pd.to_numeric(..., errors="coerce")` on the level of one cell value:
plain signed decimal literals parse, anything else (including comma-grouped
strings) coerces to `NaN`. -/
def parseFloat (s : String) : Option ℚ :=
  let l := s.data
  let (neg, l2) := match l with
    | '-' :: r => (true, r)
    | _ => (false, l)
  let (ip, r) := Finance.digitRun l2
  let sign : ℚ := if neg then -1 else 1
  match r with
  | [] => if ip.isEmpty then none else some (sign * (Finance.digitsToNat ip : ℚ))
  | '.' :: fr =>
    let (fd, r2) := Finance.digitRun fr
    if r2.isEmpty && !(ip.isEmpty && fd.isEmpty) then
      some (sign * ((Finance.digitsToNat ip : ℚ) +
        (Finance.digitsToNat fd : ℚ) / ((10 : ℚ) ^ fd.length)))
    else none
  | _ => none

/-- Round-half-to-even to an integer, the rounding of `Series.round`. -/
def roundHalfEven (x : ℚ) : ℤ :=
  let f := ⌊x⌋
  let r := x - (f : ℚ)
  if r < 1 / 2 then f
  else if 1 / 2 < r then f + 1
  else if f % 2 = 0 then f else f + 1

/-- `.round(2)`. -/
def round2 (x : ℚ) : ℚ := (roundHalfEven (x * 100) : ℚ) / 100

/-- `pd.to_numeric(col, errors="coerce").round(2)` on one cell. -/
def finalizeCell : Cell → Cell
  | .num q => .num (round2 q)
  | .str s =>
    match parseFloat s with
    | some q => .num (round2 q)
    | none => .empty
  | .empty => .empty

/-- One row of `_finalize_numbers`, walked along the column list (missing
trailing cells read as empty, exactly as `getCell` does). -/
def finalizeRow : List String → List Cell → List Cell
  | c :: cs, v :: vs =>
    (if NUMCOLS.contains c then finalizeCell v else v) :: finalizeRow cs vs
  | c :: cs, [] =>
    (if NUMCOLS.contains c then finalizeCell Cell.empty else Cell.empty) :: finalizeRow cs []
  | [], _ => []

/-- `_finalize_numbers`: coerce-and-round every cell of the four numeric
columns. -/
def _finalize_numbers (t : Table) : Table :=
  ⟨t.cols, t.rows.map fun r => finalizeRow t.cols r⟩

/-- The data effect of `_save_with_excel_format` as read back from the saved
workbook: for every row with a truthy `Filename`, the `Open File` cell is
replaced by the text `"Open"` (the hyperlink, font and number-format settings
are presentation only). -/
def _save_with_excel_format (t : Table) : Table :=
  match colIdx t.cols "Open File", colIdx t.cols "Filename" with
  | some oi, some fi =>
    ⟨t.cols, t.rows.map fun r => if truthy (getCell r fi) then r.set oi (Cell.str "Open") else r⟩
  | _, _ => t

/-- `(df["Filename"] == filename_only)` row match: the first row whose
`Filename` cell equals the string key (a pandas `==` against a string is only
true for an equal string cell). -/
def findRowIdx (t : Table) (key : String) : Option Nat :=
  t.rows.findIdx? fun r => getCellN t.cols r "Filename" = Cell.str key

/-- `_upsert`: load (`_read_or_new` / `_ensure_headers`), merge the payload
into the matched row or append a fresh one, finalize numbers, save. -/
def _upsert (key : String) (payload : List (String × Cell)) (t : Table) : Table :=
  let df := _ensure_headers t
  let merged :=
    match findRowIdx df key with
    | some i => applyPayloadEx df i payload
    | none => concatRow df (newRowDict key payload)
  _save_with_excel_format (_finalize_numbers merged)

end Finance.Ledger

namespace Finance

/-- The ASCII digit character of a value below ten. -/
def digitChar (d : Nat) : Char := Char.ofNat (48 + d)

end Finance

namespace Finance.Ledger

/-- Extra columns a payload list creates beyond a given column list: the
non-blank keys outside it, in first-occurrence order (this is both the order
in which the `.at` enlargement appends columns in the existing-row branch and
the insertion order of the new-row dict). -/
def extrasRel (cols : List String) : List (String × Cell) → List String
  | [] => []
  | (k, v) :: rest =>
    if isBlankVal v || cols.contains k then extrasRel cols rest
    else k :: extrasRel (cols ++ [k]) rest

/-- Extra columns beyond the fixed schema. -/
def extrasOf (p : List (String × Cell)) : List String := extrasRel HEADERS p

/-- The value a payload list leaves under a key: the last non-blank entry. -/
def effVal : List (String × Cell) → String → Option Cell
  | [], _ => none
  | (k, v) :: rest, c =>
    match effVal rest c with
    | some w => some w
    | none => if k = c ∧ isBlankVal v = false then some v else none

/-- The numeric finalization applied to a cell stored under a given column. -/
def finalCellAt (c : String) (v : Cell) : Cell :=
  if NUMCOLS.contains c then finalizeCell v else v

/-- A row in the form the pipeline itself persists: numeric cells are fixed
points of the coerce-and-round pass, and a row with a truthy filename carries
the rewritten `"Open"` link text. -/
def rowPersisted (cols : List String) (row : List Cell) : Prop :=
  (∀ c ∈ NUMCOLS, finalizeCell (getCellN cols row c) = getCellN cols row c) ∧
    (truthy (getCellN cols row "Filename") = true →
      getCellN cols row "Open File" = Cell.str "Open")

instance (cols : List String) (row : List Cell) : Decidable (rowPersisted cols row) := by
  unfold rowPersisted; infer_instance

/-- Fixture row for the concrete counterexamples: a ledger row for `key`
whose withdrawal cell holds `w`. -/
def plainRow (key : String) (w : Cell) : List Cell :=
  [Cell.str "", Cell.str "", w, Cell.empty, Cell.empty, Cell.empty, Cell.str "",
   Cell.str "", Cell.str "", Cell.str "", Cell.str "", Cell.str "", Cell.str key,
   Cell.str "Bangkok Bank Receipt", Cell.str "Open"]

/-- Rows aligned with the column list. -/
def Aligned (t : Table) : Prop :=
  ∀ j, j < t.rows.length → (t.rows.getD j []).length = t.cols.length

end Finance.Ledger

namespace Finance

/-! ### Theorems.  Everything below is lemmas and claim theorems. -/

theorem foldlMaxPos (l : List Nat) (a : Nat) (ha : 0 < a) : 0 < l.foldl Nat.max a := by
  induction l generalizing a with
  | nil => exact ha
  | cons x xs ih => exact ih _ (lt_of_lt_of_le ha (Nat.le_max_left a x))

theorem keepPos_pos (tok : List Char) (c : Nat) (h : SciptsAmount.keepPos tok = some c) :
    0 < c := by
  unfold SciptsAmount.keepPos at h
  split at h
  · split at h
    · injection h with h; subst h; assumption
    · exact absurd h (by simp)
  · exact absurd h (by simp)

/-- The loaded amount extractor returns nothing or a strictly positive value. -/
theorem sciptsExtract_pos (path text : String) (lines : Option (List String)) :
    SciptsAmount.extract path text lines = none ∨
      ∃ c, SciptsAmount.extract path text lines = some c ∧ 0 < c := by
  show SciptsAmount.extract_amount text = none ∨
    ∃ c, SciptsAmount.extract_amount text = some c ∧ 0 < c
  unfold SciptsAmount.extract_amount
  by_cases ht : text = ""
  · rw [if_pos ht]; exact Or.inl rfl
  · rw [if_neg ht]
    cases hl : (SciptsAmount.findallAmount text.data).filterMap SciptsAmount.keepPos with
    | nil => exact Or.inl rfl
    | cons a rest =>
      refine Or.inr ⟨rest.foldl Nat.max a, rfl, ?_⟩
      have ha : a ∈ (SciptsAmount.findallAmount text.data).filterMap SciptsAmount.keepPos := by
        rw [hl]; exact List.mem_cons_self a rest
      rcases List.mem_filterMap.mp ha with ⟨tok, _, htok⟩
      exact foldlMaxPos rest a (keepPos_pos tok a htok)

theorem clean_amount_bounds (s : List Char) (out : String)
    (h : BruteAmount.clean_amount s = some out) :
    ∃ c, 0 < c ∧ c ≤ 1000000000 ∧ out = BruteAmount.formatMoney c := by
  unfold BruteAmount.clean_amount at h
  split at h
  · exact absurd h (by simp)
  · split at h
    · exact absurd h (by simp)
    · rename_i c hp
      split at h
      · exact absurd h (by simp)
      · rename_i hcond
        injection h with h
        simp only [Bool.or_eq_true, decide_eq_true_eq, not_or] at hcond
        exact ⟨c, by omega, by omega, h.symm⟩

theorem tryNums_bounds (line : List Char) (nums : List (List Char)) (out : String)
    (h : BruteAmount.tryNums line nums = some out) :
    ∃ c, 0 < c ∧ c ≤ 1000000000 ∧ out = BruteAmount.formatMoney c := by
  induction nums with
  | nil => exact absurd h (by simp [BruteAmount.tryNums])
  | cons num rest ih =>
    unfold BruteAmount.tryNums at h
    cases hc : BruteAmount.clean_amount num with
    | none =>
      rw [hc] at h
      simp only [ite_self] at h
      exact ih h
    | some cl =>
      rw [hc] at h
      have hcl : out = cl := by
        cases hb : (endsWithL line ['T', 'H', 'B'] && !endsWithL num ['T', 'H', 'B'] &&
            containsL line (num ++ ['T', 'H', 'B'])) with
        | false => rw [hb] at h; simp at h; exact h.symm
        | true => rw [hb] at h; simp at h; exact h.symm
      subst hcl
      exact clean_amount_bounds num out hc

theorem scanSearchLines_bounds (lns : List String) (out : String)
    (h : BruteAmount.scanSearchLines lns = some out) :
    ∃ c, 0 < c ∧ c ≤ 1000000000 ∧ out = BruteAmount.formatMoney c := by
  induction lns with
  | nil => exact absurd h (by simp [BruteAmount.scanSearchLines])
  | cons ln rest ih =>
    unfold BruteAmount.scanSearchLines at h
    cases ht : BruteAmount.tryNums ln.data (BruteAmount.extract_numbers_from_text ln) with
    | none => rw [ht] at h; exact ih h
    | some c => rw [ht] at h; injection h with h; subst h; exact tryNums_bounds _ _ _ ht

theorem nearLabelGo_bounds (lns : List String) (out : String)
    (h : BruteAmount.nearLabelGo lns = some out) :
    ∃ c, 0 < c ∧ c ≤ 1000000000 ∧ out = BruteAmount.formatMoney c := by
  induction lns with
  | nil => exact absurd h (by simp [BruteAmount.nearLabelGo])
  | cons ln rest ih =>
    unfold BruteAmount.nearLabelGo at h
    split at h
    · cases hs : BruteAmount.scanSearchLines ((ln :: rest).take 4) with
      | none => rw [hs] at h; exact ih h
      | some c =>
        rw [hs] at h; injection h with h; subst h; exact scanSearchLines_bounds _ _ hs
    · exact ih h

theorem findLargestGo_bounds (nums : List (List Char)) (best : Option String) (bestC : Nat)
    (out : String)
    (hbest : ∀ b, best = some b → ∃ c, 0 < c ∧ c ≤ 1000000000 ∧ b = BruteAmount.formatMoney c)
    (h : BruteAmount.findLargestGo nums best bestC = some out) :
    ∃ c, 0 < c ∧ c ≤ 1000000000 ∧ out = BruteAmount.formatMoney c := by
  induction nums generalizing best bestC with
  | nil => exact hbest out h
  | cons num rest ih =>
    unfold BruteAmount.findLargestGo at h
    split at h
    · exact ih _ _ hbest h
    · rename_i cl hc
      split at h
      · exact ih _ _ hbest h
      · split at h
        · refine ih _ _ (fun b hb => ?_) h
          injection hb with hb
          subst hb
          exact clean_amount_bounds _ _ hc
        · exact ih _ _ hbest h

/-- The brute-force amount extractor returns nothing or the rendering of a
value that is strictly positive and at most 10,000,000 (in cents). -/
theorem bruteExtract_bounds (text : String) (lines : List String) (out : String)
    (h : BruteAmount.extractCore text lines = some out) :
    ∃ c, 0 < c ∧ c ≤ 1000000000 ∧ out = BruteAmount.formatMoney c := by
  unfold BruteAmount.extractCore at h
  split at h
  · rename_i a ha
    injection h with h
    subst h
    unfold BruteAmount.find_amount_near_amount_label at ha
    split at ha
    · exact absurd ha (by simp)
    · exact nearLabelGo_bounds _ _ ha
  · unfold BruteAmount.find_largest_reasonable_amount at h
    split at h
    · exact absurd h (by simp)
    · exact findLargestGo_bounds _ _ _ _ (fun b hb => absurd hb (by simp)) h

/-- Bounds of `bruteExtract_bounds`, lifted to the module entry point. -/
theorem bruteExtract_bounds2 (path text : String) (lines : Option (List String))
    (out : String) (h : BruteAmount.extract path text lines = some out) :
    ∃ c, 0 < c ∧ c ≤ 1000000000 ∧ out = BruteAmount.formatMoney c := by
  unfold BruteAmount.extract at h
  exact bruteExtract_bounds _ _ _ h

/-- C3, counterexample: on a transcript containing `99999999.00` the amount
extractor module the pipeline loads returns 99,999,999.00 (9,999,999,900
cents), which exceeds the claimed 10,000,000 bound — that module checks only
`amt > 0` and has no upper sanity bound. -/
theorem C3_amount_bounds_counterexample :
    SciptsAmount.extract "img.png" "Amount 99999999.00 THB"
        (some ["Amount", "99999999.00 THB"]) = some 9999999900 ∧
      100 * 10000000 < 9999999900 := by
  constructor
  · decide
  · decide

/-- C3, amended: the amount extractor actually loaded by the pipeline
(`scripts/image-scipts/amount_extractor.py`) guarantees only that a returned
amount is strictly positive — it enforces no upper bound; the brute-force
extractor in `scripts/image-scripts/amount_extractor.py` does return either
nothing or a value strictly between 0 and 10,000,000 inclusive (stated in
cents), on every input text and line sequence. -/
theorem C3_amount_bounds_amended :
    (∀ path text lines,
      SciptsAmount.extract path text lines = none ∨
        ∃ c, SciptsAmount.extract path text lines = some c ∧ 0 < c) ∧
      (∀ path text lines,
        BruteAmount.extract path text lines = none ∨
          ∃ c, 0 < c ∧ c ≤ 1000000000 ∧
            BruteAmount.extract path text lines = some (BruteAmount.formatMoney c)) := by
  constructor
  · exact sciptsExtract_pos
  · intro path text lines
    cases h : BruteAmount.extract path text lines with
    | none => exact Or.inl rfl
    | some out =>
      rcases bruteExtract_bounds2 path text lines out h with ⟨c, hc1, hc2, hc3⟩
      exact Or.inr ⟨c, hc1, hc2, by rw [← hc3]⟩

/-- C4: the two label-anchored examples from the specification, evaluated on
the brute-force amount extractor (the module of the cited
`find_amount_near_amount_label`): `["Amount", "2,500.00 THB"]` yields
`"2,500.00"` and `["Amount", "759.00THB"]` (no space before the currency
code) yields `"759.00"`. -/
theorem C4_amount_label_examples :
    BruteAmount.extract "img.png" "Amount\n2,500.00 THB"
        (some ["Amount", "2,500.00 THB"]) = some "2,500.00" ∧
      BruteAmount.extract "img.png" "Amount\n759.00THB"
        (some ["Amount", "759.00THB"]) = some "759.00" := by
  constructor
  · decide
  · decide

/-- C10: the amount extractor module the pipeline loads computes its result
from `full_text` alone — the `lines` argument never influences the result,
and with an empty `full_text` nothing is found no matter what the lines
contain. -/
theorem C10_amount_ignores_lines :
    (∀ path text l1 l2,
      SciptsAmount.extract path text l1 = SciptsAmount.extract path text l2) ∧
      ∀ path lines, SciptsAmount.extract path "" lines = none := by
  exact ⟨fun _ _ _ _ => rfl, fun _ _ => rfl⟩

end Finance

namespace Finance

/-- C2 (code bug): the pipeline never invokes the Date/Time Extractor — all
four `EXTRACTOR_*_PATH` constants point into `scripts/image-scipts/`, which
contains only the amount module, and even the call site uses the attribute
name `extract_date_time` that no module in the repository defines — so the
record's Date and Time (and Description and Note) fields are `""` for every
transcript, while the Date/Time Extractor's `extract` itself returns
`("01/07/2025", "14:24")` on the failing input `["07 Jan 25,14:24"]`. -/
theorem C2_pipeline_never_invokes_date_extractor :
    (∀ img text lines,
      (Pipeline.mainRecord img text lines).date = "" ∧
        (Pipeline.mainRecord img text lines).time = "" ∧
        (Pipeline.mainRecord img text lines).description = "" ∧
        (Pipeline.mainRecord img text lines).note = "") ∧
      DateExt.extract "receipt.png" "" (some ["07 Jan 25,14:24"]) =
        ("01/07/2025", "14:24") := by
  refine ⟨fun img text lines => ⟨rfl, rfl, rfl, rfl⟩, by decide⟩

/-- C1, counterexample: on the single line `15 Oct 25, 14:30` — a valid
`<day> <month-abbrev> <2-digit-year>, <hour>:<minute>` input with the month
`Oct` — the Date/Time Extractor returns `("", "")` instead of the claimed
`("10/15/2025", "14:30")`: `_fix_ocr_digits` is applied to the whole line
before the date regex runs, turning `Oct` into `0ct`, which
`[A-Za-z]{3}` no longer matches. -/
theorem C1_date_extractor_counterexample :
    DateExt.extract "r.png" "" (some ["15 Oct 25, 14:30"]) = ("", "") ∧
      DateExt.extract "r.png" "" (some ["15 Oct 25, 14:30"]) ≠ ("10/15/2025", "14:30") := by
  refine ⟨by decide, by decide⟩

end Finance

namespace Finance

theorem digitChar_isDigit (a : Nat) (h : a < 10) : (digitChar a).isDigit = true := by
  interval_cases a <;> decide

theorem digitChar_word (a : Nat) (h : a < 10) : isWordChar (digitChar a) = true := by
  interval_cases a <;> decide

theorem digitChar_space (a : Nat) (h : a < 10) : pySpace (digitChar a) = false := by
  interval_cases a <;> decide

theorem digitChar_fix (a : Nat) (h : a < 10) : DateExt.fixChar (digitChar a) = digitChar a := by
  interval_cases a <;> decide

theorem digitChar_colonDot (a : Nat) (h : a < 10) : DateExt.isColonDot (digitChar a) = false := by
  interval_cases a <;> decide

theorem digitChar_classH (a : Nat) (h : a < 10) :
    DateExt.inClassH (digitChar a) = decide (a ≤ 2) := by
  interval_cases a <;> decide

theorem digitChar_classM (a : Nat) (h : a < 10) :
    DateExt.inClassM (digitChar a) = decide (a ≤ 5) := by
  interval_cases a <;> decide

theorem digitsToNat_one (a : Nat) (h : a < 10) : digitsToNat [digitChar a] = a := by
  interval_cases a <;> decide

theorem digitsToNat_two (a b : Nat) (ha : a < 10) (hb : b < 10) :
    digitsToNat [digitChar a, digitChar b] = 10 * a + b := by
  interval_cases a <;> interval_cases b <;> decide

theorem repr2000 (y : Nat) (h : y < 100) : Nat.repr (2000 + y) = "20" ++ pad2 y := by
  interval_cases y <;> decide

theorem alphaNotSpace {c : Char} (h : c.isAlpha = true) : pySpace c = false := by
  rw [Bool.eq_false_iff]
  intro hcon
  simp only [pySpace, Bool.or_eq_true, decide_eq_true_eq] at hcon
  rcases hcon with ((((hc | hc) | hc) | hc) | hc) | hc <;> subst hc <;> simp at h

theorem alphaWord {c : Char} (h : c.isAlpha = true) : isWordChar c = true := by
  simp [isWordChar, Char.isAlphanum, h]

theorem fixChar_ne {c : Char} (hf : DateExt.fixChar c = c) :
    c ≠ 'O' ∧ c ≠ 'o' ∧ c ≠ 'I' ∧ c ≠ 'l' := by
  refine ⟨?_, ?_, ?_, ?_⟩ <;> rintro rfl <;> simp [DateExt.fixChar] at hf

theorem alphaFix_classH {c : Char} (ha : c.isAlpha = true) (hf : DateExt.fixChar c = c) :
    DateExt.inClassH c = false := by
  rcases fixChar_ne hf with ⟨hO, _, hI, hl⟩
  rw [Bool.eq_false_iff]
  intro hc
  simp only [DateExt.inClassH, Bool.or_eq_true, decide_eq_true_eq] at hc
  rcases hc with ((((hc | hc) | hc) | hc) | hc) | hc
  · subst hc; simp at ha
  · subst hc; simp at ha
  · subst hc; simp at ha
  · exact hO hc
  · exact hI hc
  · exact hl hc

theorem alphaFix_classM {c : Char} (ha : c.isAlpha = true) (hf : DateExt.fixChar c = c) :
    DateExt.inClassM c = false := by
  rcases fixChar_ne hf with ⟨hO, _, hI, hl⟩
  rw [Bool.eq_false_iff]
  intro hc
  simp only [DateExt.inClassM, Bool.or_eq_true, decide_eq_true_eq] at hc
  rcases hc with (((((((hc | hc) | hc) | hc) | hc) | hc) | hc) | hc) | hc
  · subst hc; simp at ha
  · subst hc; simp at ha
  · subst hc; simp at ha
  · subst hc; simp at ha
  · subst hc; simp at ha
  · subst hc; simp at ha
  · exact hO hc
  · exact hI hc
  · exact hl hc

theorem alphaColonDot {c : Char} (ha : c.isAlpha = true) : DateExt.isColonDot c = false := by
  rw [Bool.eq_false_iff]
  intro hc
  simp only [DateExt.isColonDot, Bool.or_eq_true, decide_eq_true_eq] at hc
  rcases hc with hc | hc <;> subst hc <;> simp at ha

theorem alphaNotDigit {c : Char} (ha : c.isAlpha = true) : c.isDigit = false := by
  rw [Bool.eq_false_iff]
  intro hc
  simp only [Char.isAlpha, Char.isUpper, Char.isLower, Bool.or_eq_true, Bool.and_eq_true,
    decide_eq_true_eq] at ha
  simp only [Char.isDigit, Bool.and_eq_true, decide_eq_true_eq] at hc
  have h1 : (65 ≤ c.toNat ∧ c.toNat ≤ 90) ∨ (97 ≤ c.toNat ∧ c.toNat ≤ 122) := ha
  have h2 : 48 ≤ c.toNat ∧ c.toNat ≤ 57 := hc
  omega

end Finance

namespace Finance

theorem timeSearch_unfold (prev : Option Char) (c : Char) (rest : List Char) :
    DateExt.timeSearch prev (c :: rest) =
      match DateExt.timeTryAt prev (c :: rest) with
      | some g => some g
      | none => DateExt.timeSearch (some c) rest := by
  rw [DateExt.timeSearch.eq_def]
  cases h : DateExt.timeTryAt prev (c :: rest) <;> simp [h]

theorem dateSearch_unfold (prev : Option Char) (c : Char) (rest : List Char) :
    DateExt.dateSearch prev (c :: rest) =
      match DateExt.dateTryAt prev (c :: rest) with
      | some g => some g
      | none => DateExt.dateSearch (some c) rest := by
  rw [DateExt.dateSearch.eq_def]
  cases h : DateExt.dateTryAt prev (c :: rest) <;> simp [h]

theorem fmt_date_ne (d m y : Nat) : DateExt._fmt_date d m y ≠ "" := by
  unfold DateExt._fmt_date
  intro h
  have h2 := congrArg String.length h
  simp [String.length_append, (show ("/" : String).length = 1 from rfl)] at h2

theorem fmt_time_ne (h m : Nat) : DateExt._fmt_time h m ≠ "" := by
  unfold DateExt._fmt_time
  intro hc
  have h2 := congrArg String.length hc
  simp [String.length_append, (show (":" : String).length = 1 from rfl)] at h2

set_option maxHeartbeats 2000000 in
/-- C1, amended: the claim holds for month abbreviations that survive the
OCR digit fixer — i.e. contain none of the glyphs `O`, `o`, `I`, `l` the
fixer rewrites (stated as `fixChar mᵢ = mᵢ`), which excludes `Oct`, `Nov`
and any spelling of `Jul` with a lowercase `l`.  For every such line
`<day 1-2 digits> <month-abbrev> <2-digit year><, | comma-space | space>
<HH>:<MM>` with a real hour (≤ 23) and minute (≤ 59), `extract` returns the
date `MM/DD/YYYY` (month number per the table, `20`-prefixed year) and the
time `HH:MM`. -/
theorem C1_date_extractor_amended (path : String) (dayCs : List Char) (dayVal : Nat)
    (d1 d2 : Nat) (m1 m2 m3 : Char) (M : Nat)
    (y1 y2 h1 h2 n1 n2 : Nat) (sep : List Char)
    (hd1 : d1 < 10) (hd2 : d2 < 10) (hy1 : y1 < 10) (hy2 : y2 < 10)
    (hh1 : h1 < 10) (hh2 : h2 < 10) (hn1 : n1 < 10) (hn2 : n2 < 10)
    (hhour : 10 * h1 + h2 ≤ 23) (hmin : 10 * n1 + n2 ≤ 59)
    (hday : (dayCs = [digitChar d1] ∧ dayVal = d1) ∨
      (dayCs = [digitChar d1, digitChar d2] ∧ dayVal = 10 * d1 + d2))
    (halpha : m1.isAlpha = true ∧ m2.isAlpha = true ∧ m3.isAlpha = true)
    (hfix : DateExt.fixChar m1 = m1 ∧ DateExt.fixChar m2 = m2 ∧ DateExt.fixChar m3 = m3)
    (hm : DateExt.monthLookup (lowerL [m1, m2, m3]) = some M)
    (hsep : sep = [','] ∨ sep = [',', ' '] ∨ sep = [' ']) :
    DateExt.extract path ""
        (some [⟨dayCs ++ [' ', m1, m2, m3, ' ', digitChar y1, digitChar y2] ++ sep ++
          [digitChar h1, digitChar h2, ':', digitChar n1, digitChar n2]⟩]) =
      (pad2 M ++ "/" ++ pad2 dayVal ++ "/" ++ ("20" ++ pad2 (10 * y1 + y2)),
        pad2 (10 * h1 + h2) ++ ":" ++ pad2 (10 * n1 + n2)) := by
  obtain ⟨ha1, ha2, ha3⟩ := halpha
  obtain ⟨hf1, hf2, hf3⟩ := hfix
  have ch1 : DateExt.inClassH (digitChar h1) = true := by
    rw [digitChar_classH h1 hh1]; simp; omega
  have cn1 : DateExt.inClassM (digitChar n1) = true := by
    rw [digitChar_classM n1 hn1]; simp; omega
  have hclamp1 : min (10 * h1 + h2) 23 = 10 * h1 + h2 := by omega
  have hclamp2 : min (10 * n1 + n2) 59 = 10 * n1 + n2 := by omega
  have hrep : Nat.repr (2000 + (10 * y1 + y2)) = "20" ++ pad2 (10 * y1 + y2) :=
    repr2000 _ (by omega)
  rcases hday with ⟨rfl, hv⟩ | ⟨rfl, hv⟩ <;> rw [hv] <;> rcases hsep with rfl | rfl | rfl <;>
  · simp only [DateExt.extract, DateExt.pass1, DateExt._parse_date_time_from_line,
      List.cons_append, List.nil_append]
    simp [stripL, List.dropWhile, DateExt.fixOcr,
      dateSearch_unfold, DateExt.dateTryAt, DateExt.dateMonthSp, DateExt.dateMonthSpGo,
      DateExt.dateMonth, DateExt.dateYearSp, DateExt.dateYearSpGo, DateExt.dateYear,
      timeSearch_unfold, DateExt.timeTryAt, prevIsWord, endBoundary, hm,
      fmt_date_ne, fmt_time_ne,
      alphaNotSpace ha1, alphaNotSpace ha2, alphaNotSpace ha3,
      alphaWord ha1, alphaWord ha2, alphaWord ha3, ha1, ha2, ha3,
      alphaFix_classH ha1 hf1, alphaColonDot ha1, alphaColonDot ha2, alphaColonDot ha3,
      hf1, hf2, hf3,
      digitChar_isDigit d1 hd1, digitChar_isDigit d2 hd2,
      digitChar_isDigit y1 hy1, digitChar_isDigit y2 hy2,
      digitChar_isDigit h1 hh1, digitChar_isDigit h2 hh2,
      digitChar_isDigit n1 hn1, digitChar_isDigit n2 hn2,
      digitChar_word d1 hd1, digitChar_word d2 hd2,
      digitChar_word y1 hy1, digitChar_word y2 hy2,
      digitChar_word h1 hh1, digitChar_word h2 hh2,
      digitChar_word n1 hn1, digitChar_word n2 hn2,
      digitChar_space d1 hd1, digitChar_space d2 hd2,
      digitChar_space y1 hy1, digitChar_space y2 hy2,
      digitChar_space h1 hh1, digitChar_space h2 hh2,
      digitChar_space n1 hn1, digitChar_space n2 hn2,
      digitChar_fix d1 hd1, digitChar_fix d2 hd2,
      digitChar_fix y1 hy1, digitChar_fix y2 hy2,
      digitChar_fix h1 hh1, digitChar_fix h2 hh2,
      digitChar_fix n1 hn1, digitChar_fix n2 hn2,
      digitChar_colonDot d1 hd1, digitChar_colonDot d2 hd2,
      digitChar_colonDot y1 hy1, digitChar_colonDot y2 hy2,
      digitChar_colonDot h1 hh1, digitChar_colonDot h2 hh2,
      digitChar_colonDot n1 hn1, digitChar_colonDot n2 hn2,
      ch1, cn1,
      (by decide : pySpace (' ' : Char) = true),
      (by decide : DateExt.fixChar (' ' : Char) = ' '),
      (by decide : DateExt.fixChar (',' : Char) = ','),
      (by decide : DateExt.fixChar (':' : Char) = ':'),
      (by decide : (' ' : Char).isDigit = false),
      (by decide : (',' : Char).isDigit = false),
      (by decide : (':' : Char).isDigit = false),
      (by decide : isWordChar (' ' : Char) = false),
      (by decide : isWordChar (',' : Char) = false),
      (by decide : isWordChar (':' : Char) = false),
      (by decide : DateExt.inClassH (' ' : Char) = false),
      (by decide : DateExt.inClassH (',' : Char) = false),
      (by decide : DateExt.inClassH (':' : Char) = false),
      (by decide : DateExt.inClassM (':' : Char) = false),
      (by decide : DateExt.isColonDot (':' : Char) = true),
      (by decide : DateExt.isColonDot (',' : Char) = false),
      (by decide : DateExt.isColonDot (' ' : Char) = false)]
    simp [DateExt._fmt_date, DateExt._fmt_time, DateExt.fixOcr,
      digitChar_fix h1 hh1, digitChar_fix h2 hh2, digitChar_fix n1 hn1, digitChar_fix n2 hn2,
      digitsToNat_one d1 hd1, digitsToNat_two d1 d2 hd1 hd2, digitsToNat_two y1 y2 hy1 hy2,
      digitsToNat_two h1 h2 hh1 hh2, digitsToNat_two n1 n2 hn1 hn2,
      hclamp1, hclamp2, hrep]

end Finance

namespace Finance

/-- Witness for the amended C1 theorem: the line `07 Jan 25,14:24` parses to
`("01/07/2025", "14:24")`. -/
theorem C1_date_extractor_amended_witness :
    DateExt.extract "r.png" ""
        (some [⟨[digitChar 0, digitChar 7] ++
          [' ', 'J', 'a', 'n', ' ', digitChar 2, digitChar 5] ++ [','] ++
          [digitChar 1, digitChar 4, ':', digitChar 2, digitChar 4]⟩]) =
      ("01/07/2025", "14:24") := by
  have h := C1_date_extractor_amended "r.png" [digitChar 0, digitChar 7] 7 0 7 'J' 'a' 'n' 1
    2 5 1 4 2 4 [','] (by decide) (by decide) (by decide) (by decide) (by decide) (by decide)
    (by decide) (by decide) (by decide) (by decide) (by decide) (by decide) (by decide)
    (by decide) (by decide)
  exact h.trans (by decide)

end Finance

namespace Finance

open Ledger

/-- C5, counterexample: an update record with the off-schema field `Bogus`
changes the column list — the pandas `.at`/concat enlargement appends a new
`Bogus` column — so an upsert does not preserve the column set for every
update record. -/
theorem C5_schema_counterexample :
    (Ledger._upsert "a.png" [("Bogus", Cell.str "x")]
        ⟨Ledger.HEADERS, [Ledger.plainRow "a.png" Cell.empty]⟩).cols ≠
      (⟨Ledger.HEADERS, [Ledger.plainRow "a.png" Cell.empty]⟩ : Ledger.Table).cols ∧
      (Ledger._upsert "a.png" [("Bogus", Cell.str "x")]
        ⟨Ledger.HEADERS, [Ledger.plainRow "a.png" Cell.empty]⟩).cols =
        Ledger.HEADERS ++ ["Bogus"] := by
  refine ⟨by decide, by decide⟩

/-- C6, counterexample: a row whose `THB Withdrawal` cell holds the
non-numeric text `"abc"` loses it on an upsert whose update record carries
only an **empty** value for that field — `_finalize_numbers` coerces the cell
to empty regardless of the record — so an empty update value can erase a
previously-filled cell. -/
theorem C6_overwrite_counterexample :
    Ledger.getCellN Ledger.HEADERS
        ((Ledger._upsert "a.png" [("THB Withdrawal", Cell.str "")]
          ⟨Ledger.HEADERS, [Ledger.plainRow "a.png" (Cell.str "abc")]⟩).rows.getD 0 [])
        "THB Withdrawal" = Cell.empty ∧
      Ledger.getCellN Ledger.HEADERS (Ledger.plainRow "a.png" (Cell.str "abc"))
        "THB Withdrawal" = Cell.str "abc" ∧
      Ledger.isBlankVal (Cell.str "") = true := by
  refine ⟨by decide, by decide, by decide⟩

/-- C7, counterexample: an upsert for key `b.png` changes a cell of the
unrelated row `a.png` — its non-numeric `THB Withdrawal` text is coerced to
empty by the numeric finalization that runs over the whole frame. -/
theorem C7_frame_counterexample :
    Ledger.getCellN Ledger.HEADERS
        ((Ledger._upsert "b.png" [("Date", Cell.str "01/07/2025")]
          ⟨Ledger.HEADERS, [Ledger.plainRow "a.png" (Cell.str "abc"),
            Ledger.plainRow "b.png" Cell.empty]⟩).rows.getD 0 [])
        "THB Withdrawal" = Cell.empty ∧
      Ledger.getCellN Ledger.HEADERS (Ledger.plainRow "a.png" (Cell.str "abc"))
        "THB Withdrawal" = Cell.str "abc" ∧
      ("a.png" : String) ≠ "b.png" := by
  refine ⟨by decide, by decide, by decide⟩

/-- C8, counterexample: an update record that overwrites the identity column
`Filename` with a different name breaks idempotence — after the first upsert
no row matches the key any more, so the second upsert appends a second row. -/
theorem C8_idempotence_counterexample :
    Ledger._upsert "b.png" [("Filename", Cell.str "c.png")]
        (Ledger._upsert "b.png" [("Filename", Cell.str "c.png")] ⟨Ledger.HEADERS, []⟩) ≠
      Ledger._upsert "b.png" [("Filename", Cell.str "c.png")] ⟨Ledger.HEADERS, []⟩ ∧
      (Ledger._upsert "b.png" [("Filename", Cell.str "c.png")]
        (Ledger._upsert "b.png" [("Filename", Cell.str "c.png")]
          ⟨Ledger.HEADERS, []⟩)).rows.length = 2 ∧
      (Ledger._upsert "b.png" [("Filename", Cell.str "c.png")]
        ⟨Ledger.HEADERS, []⟩).rows.length = 1 := by
  refine ⟨by decide, by decide, by decide⟩

end Finance
namespace Finance.Ledger

theorem colIdx_cons (c : String) (cs : List String) (h : String) :
    colIdx (c :: cs) h = if c = h then some 0 else (colIdx cs h).map (· + 1) := by
  simp only [colIdx, List.findIdx?_cons]
  by_cases hch : c = h
  · simp [hch]
  · rw [if_neg (by simpa using hch), if_neg hch]
    simpa using @List.findIdx?_start_succ _ cs (fun x => decide (x = h)) 0

theorem colIdx_not_mem {cols : List String} {h : String} (hm : h ∉ cols) :
    colIdx cols h = none := by
  induction cols with
  | nil => rfl
  | cons c cs ih =>
    rw [colIdx_cons]
    rw [if_neg (by intro hc; exact hm (hc ▸ List.mem_cons_self c cs)),
      ih (fun hx => hm (List.mem_cons_of_mem c hx))]
    rfl

theorem colIdx_mem {cols : List String} {h : String} (hm : h ∈ cols) :
    ∃ i, colIdx cols h = some i ∧ i < cols.length := by
  induction cols with
  | nil => cases hm
  | cons c cs ih =>
    rw [colIdx_cons]
    by_cases hc : c = h
    · exact ⟨0, by rw [if_pos hc], by simp⟩
    · rcases ih (by rcases List.mem_cons.mp hm with h1 | h1
                    · exact absurd h1.symm hc
                    · exact h1) with ⟨i, hi, hlt⟩
      exact ⟨i + 1, by rw [if_neg hc, hi]; rfl, by simpa using Nat.succ_lt_succ hlt⟩

theorem colIdx_lt {cols : List String} {h : String} {i : Nat} (hc : colIdx cols h = some i) :
    i < cols.length := by
  induction cols generalizing i with
  | nil => cases hc
  | cons c cs ih =>
    rw [colIdx_cons] at hc
    split at hc
    · cases hc; simp
    · cases hi : colIdx cs h with
      | none => rw [hi] at hc; cases hc
      | some j =>
        rw [hi] at hc
        injection hc with hc
        subst hc
        simpa using Nat.succ_lt_succ (ih hi)

theorem colIdx_getD {cols : List String} {h : String} {i : Nat} (hc : colIdx cols h = some i) :
    cols.getD i "" = h := by
  induction cols generalizing i with
  | nil => cases hc
  | cons c cs ih =>
    rw [colIdx_cons] at hc
    split at hc
    · rename_i hch
      cases hc
      simpa using hch
    · cases hi : colIdx cs h with
      | none => rw [hi] at hc; cases hc
      | some j =>
        rw [hi] at hc
        injection hc with hc
        subst hc
        simpa using ih hi

theorem colIdx_append_left {c1 : List String} (c2 : List String) {h : String} {i : Nat}
    (hc : colIdx c1 h = some i) : colIdx (c1 ++ c2) h = some i := by
  induction c1 generalizing i with
  | nil => cases hc
  | cons c cs ih =>
    rw [colIdx_cons] at hc
    rw [List.cons_append, colIdx_cons]
    split at hc
    · rename_i hch; rw [if_pos hch]; exact hc
    · rename_i hch
      rw [if_neg hch]
      cases hi : colIdx cs h with
      | none => rw [hi] at hc; cases hc
      | some j =>
        rw [hi] at hc
        rw [ih hi]
        exact hc

theorem colIdx_append_right {c1 : List String} (c2 : List String) {h : String}
    (hc : colIdx c1 h = none) :
    colIdx (c1 ++ c2) h = (colIdx c2 h).map (· + c1.length) := by
  induction c1 with
  | nil => simp
  | cons c cs ih =>
    rw [colIdx_cons] at hc
    split at hc
    · cases hc
    · rename_i hch
      cases hi : colIdx cs h with
      | none =>
        rw [List.cons_append, colIdx_cons, if_neg hch, ih hi]
        cases colIdx c2 h <;> simp [Nat.add_comm, Nat.add_left_comm, Nat.add_assoc]
      | some j => rw [hi] at hc; cases hc

theorem colIdx_self_nodup {cols : List String} (hn : cols.Nodup) {i : Nat}
    (hi : i < cols.length) : colIdx cols (cols.getD i "") = some i := by
  induction cols generalizing i with
  | nil => cases hi
  | cons c cs ih =>
    rcases List.nodup_cons.mp hn with ⟨hnotin, hn2⟩
    cases i with
    | zero => rw [colIdx_cons]; simp
    | succ j =>
      have hj : j < cs.length := by simpa using hi
      have hmem : cs.getD j "" ∈ cs := by
        rw [List.getD_eq_getElem cs "" hj]
        exact List.getElem_mem hj
      rw [colIdx_cons]
      have : c ≠ cs.getD j "" := fun hc => hnotin (hc ▸ hmem)
      simp only [List.getD_cons_succ]
      rw [if_neg this, ih hn2 hj]
      rfl

end Finance.Ledger
namespace Finance.Ledger

theorem getD_set_self {α : Type} {l : List α} {i : Nat} {d : α} (h : i < l.length) (v : α) :
    (l.set i v).getD i d = v := by
  induction l generalizing i with
  | nil => cases h
  | cons a as ih =>
    cases i with
    | zero => rfl
    | succ j => exact ih (by simpa using h) 

theorem getD_set_ne {α : Type} {l : List α} {i j : Nat} {d : α} (h : i ≠ j) (v : α) :
    (l.set i v).getD j d = l.getD j d := by
  induction l generalizing i j with
  | nil => simp
  | cons a as ih =>
    cases i with
    | zero =>
      cases j with
      | zero => exact absurd rfl h
      | succ k => rfl
    | succ i2 =>
      cases j with
      | zero => rfl
      | succ k =>
        have hik : i2 ≠ k := fun hc => h (by rw [hc])
        exact ih hik

theorem getD_append_left {α : Type} {l1 l2 : List α} {j : Nat} {d : α} (h : j < l1.length) :
    (l1 ++ l2).getD j d = l1.getD j d := by
  induction l1 generalizing j with
  | nil => cases h
  | cons a as ih =>
    cases j with
    | zero => rfl
    | succ k => exact ih (by simpa using h)

theorem getD_append_right {α : Type} (l1 l2 : List α) (k : Nat) {d : α} :
    (l1 ++ l2).getD (l1.length + k) d = l2.getD k d := by
  induction l1 with
  | nil => simp
  | cons a as ih => simpa [Nat.succ_add] using ih

theorem getD_ge {α : Type} {l : List α} {j : Nat} {d : α} (h : l.length ≤ j) :
    l.getD j d = d := by
  induction l generalizing j with
  | nil => cases j <;> rfl
  | cons a as ih =>
    cases j with
    | zero => exact absurd h (by simp)
    | succ k => exact ih (by simpa using h)

theorem set_ge {α : Type} {l : List α} {j : Nat} (h : l.length ≤ j) (v : α) :
    l.set j v = l := by
  induction l generalizing j with
  | nil => rfl
  | cons a as ih =>
    cases j with
    | zero => exact absurd h (by simp)
    | succ k => simpa using ih (by simpa using h)

theorem getD_map2 {α β : Type} (f : α → β) {l : List α} {i : Nat} (dB : β) (dA : α)
    (h : i < l.length) : (l.map f).getD i dB = f (l.getD i dA) := by
  induction l generalizing i with
  | nil => cases h
  | cons a as ih =>
    cases i with
    | zero => rfl
    | succ k => exact ih (by simpa using h)

end Finance.Ledger
namespace Finance.Ledger

theorem HEADERS_nodup : HEADERS.Nodup := by decide

theorem getCellN_cons (c0 : String) (cs : List String) (w : Cell) (ws : List Cell)
    (c : String) :
    getCellN (c0 :: cs) (w :: ws) c = if c0 = c then w else getCellN cs ws c := by
  unfold getCellN
  rw [colIdx_cons]
  by_cases h : c0 = c
  · rw [if_pos h, if_pos h]; rfl
  · rw [if_neg h, if_neg h]
    cases hi : colIdx cs c with
    | none => rfl
    | some i => rfl

theorem getCellN_nil_row (cols : List String) (c : String) :
    getCellN cols [] c = Cell.empty := by
  unfold getCellN
  cases hi : colIdx cols c with
  | none => rfl
  | some i => cases i <;> rfl

theorem getCellN_empty_cols (r : List Cell) (c : String) : getCellN [] r c = Cell.empty := rfl

theorem getCellN_finalizeRow (cols : List String) (r : List Cell) (c : String) :
    getCellN cols (finalizeRow cols r) c =
      if NUMCOLS.contains c then finalizeCell (getCellN cols r c)
      else getCellN cols r c := by
  induction cols generalizing r with
  | nil =>
    rw [getCellN_empty_cols, getCellN_empty_cols]
    split <;> rfl
  | cons c0 cs ih =>
    cases r with
    | nil =>
      rw [finalizeRow, getCellN_cons, getCellN_nil_row]
      by_cases h : c0 = c
      · rw [if_pos h]
        subst h
        by_cases hn : NUMCOLS.contains c0 <;> simp [hn]
      · rw [if_neg h, ih [], getCellN_nil_row]
    | cons w ws =>
      rw [finalizeRow, getCellN_cons, getCellN_cons]
      by_cases h : c0 = c
      · rw [if_pos h, if_pos h]
        subst h
        rfl
      · rw [if_neg h, if_neg h, ih ws]

end Finance.Ledger
namespace Finance.Ledger

theorem findIdx0_cons {α : Type} (p : α → Bool) (a : α) (l : List α) :
    (a :: l).findIdx? p = if p a then some 0 else (l.findIdx? p).map (· + 1) := by
  rw [List.findIdx?_cons]
  split
  · rfl
  · simpa using @List.findIdx?_start_succ _ l p 0

theorem findIdx0_lt {α : Type} {p : α → Bool} {l : List α} {i : Nat}
    (h : l.findIdx? p = some i) : i < l.length := by
  induction l generalizing i with
  | nil => cases h
  | cons a as ih =>
    rw [findIdx0_cons] at h
    split at h
    · cases h; simp
    · cases hi : as.findIdx? p with
      | none => rw [hi] at h; cases h
      | some j =>
        rw [hi] at h
        injection h with h
        subst h
        simpa using Nat.succ_lt_succ (ih hi)

theorem findIdx0_getD {α : Type} {p : α → Bool} {l : List α} {i : Nat} (d : α)
    (h : l.findIdx? p = some i) : p (l.getD i d) = true := by
  induction l generalizing i with
  | nil => cases h
  | cons a as ih =>
    rw [findIdx0_cons] at h
    split at h
    · cases h; assumption
    · cases hi : as.findIdx? p with
      | none => rw [hi] at h; cases h
      | some j =>
        rw [hi] at h
        injection h with h
        subst h
        exact ih hi

theorem findIdx0_before {α : Type} {p : α → Bool} {l : List α} {i : Nat} (d : α)
    (h : l.findIdx? p = some i) {j : Nat} (hj : j < i) : p (l.getD j d) = false := by
  induction l generalizing i j with
  | nil => cases h
  | cons a as ih =>
    rw [findIdx0_cons] at h
    split at h
    · cases h; cases hj
    · rename_i hpa
      cases hi : as.findIdx? p with
      | none => rw [hi] at h; cases h
      | some k =>
        rw [hi] at h
        injection h with h
        subst h
        cases j with
        | zero => simpa using hpa
        | succ j2 =>
          have hj2 : j2 < k := by simpa using hj
          exact ih hi hj2

theorem findIdx0_none {α : Type} {p : α → Bool} {l : List α}
    (h : ∀ x ∈ l, p x = false) : l.findIdx? p = none := by
  rw [List.findIdx?_eq_none_iff]
  exact h

theorem getCellN_map_cols {cols : List String} {f : String → Cell} {h : String}
    (hm : h ∈ cols) : getCellN cols (cols.map f) h = f h := by
  rcases colIdx_mem hm with ⟨i, hi, hlt⟩
  unfold getCellN getCell
  rw [hi]
  show (cols.map f).getD i Cell.empty = f h
  rw [getD_map2 f Cell.empty "" hlt, colIdx_getD hi]

theorem getCellN_not_mem {cols : List String} {r : List Cell} {h : String}
    (hm : h ∉ cols) : getCellN cols r h = Cell.empty := by
  unfold getCellN
  rw [colIdx_not_mem hm]

end Finance.Ledger

namespace Finance.Ledger

theorem ensure_cols (t : Table) : (_ensure_headers t).cols = HEADERS := rfl

theorem ensure_len (t : Table) : (_ensure_headers t).rows.length = t.rows.length := by
  simp [_ensure_headers]

theorem ensure_row (t : Table) {j : Nat} (hj : j < t.rows.length) :
    (_ensure_headers t).rows.getD j [] =
      HEADERS.map fun h =>
        match colIdx t.cols h with
        | some i => getCell (t.rows.getD j []) i
        | none => Cell.str "" := by
  simp only [_ensure_headers]
  exact getD_map2 _ [] [] hj

theorem ensure_aligned (t : Table) : Aligned (_ensure_headers t) := by
  intro j hj
  rw [ensure_len] at hj
  rw [ensure_row t hj, ensure_cols]
  simp

theorem ensure_read (t : Table) {j : Nat} (hj : j < t.rows.length) {h : String}
    (hm : h ∈ HEADERS) :
    getCellN HEADERS ((_ensure_headers t).rows.getD j []) h =
      match colIdx t.cols h with
      | some i => getCell (t.rows.getD j []) i
      | none => Cell.str "" := by
  rw [ensure_row t hj, getCellN_map_cols hm]

theorem ensure_read_mem (t : Table) {j : Nat} (hj : j < t.rows.length) {h : String}
    (hm : h ∈ HEADERS) (hmc : h ∈ t.cols) :
    getCellN HEADERS ((_ensure_headers t).rows.getD j []) h =
      getCellN t.cols (t.rows.getD j []) h := by
  rw [ensure_read t hj hm]
  rcases colIdx_mem hmc with ⟨i, hi, _⟩
  rw [hi]
  unfold getCellN
  rw [hi]

theorem getCellN_some {cols : List String} {c : String} {i : Nat}
    (hi : colIdx cols c = some i) (r : List Cell) :
    getCellN cols r c = r.getD i Cell.empty := by
  unfold getCellN getCell
  rw [hi]

theorem setCellTable_rows_len (t : Table) (ridx : Nat) (k : String) (v : Cell) :
    (setCellTable t ridx k v).rows.length = t.rows.length := by
  unfold setCellTable
  cases colIdx t.cols k <;> simp

theorem setCellTable_cols_mem {t : Table} {k : String} (hm : k ∈ t.cols)
    (ridx : Nat) (v : Cell) : (setCellTable t ridx k v).cols = t.cols := by
  unfold setCellTable
  rcases colIdx_mem hm with ⟨i, hi, _⟩
  rw [hi]

theorem setCellTable_cols_not_mem {t : Table} {k : String} (hm : k ∉ t.cols)
    (ridx : Nat) (v : Cell) : (setCellTable t ridx k v).cols = t.cols ++ [k] := by
  unfold setCellTable
  rw [colIdx_not_mem hm]

theorem setCellTable_aligned {t : Table} (ha : Aligned t) (ridx : Nat)
    (k : String) (v : Cell) :
    Aligned (setCellTable t ridx k v) := by
  unfold setCellTable
  cases hc : colIdx t.cols k with
  | some i =>
    intro j hj
    simp only [List.length_set] at hj
    by_cases hjr : j = ridx
    · subst hjr
      rw [getD_set_self hj]
      rw [List.length_set]
      exact ha j hj
    · rw [getD_set_ne (fun hh => hjr hh.symm)]
      exact ha j hj
  | none =>
    intro j hj
    simp only [List.length_set, List.length_map] at hj
    simp only [List.length_append, List.length_cons, List.length_nil]
    by_cases hjr : j = ridx
    · subst hjr
      rw [getD_set_self (by simpa using hj)]
      rw [List.length_append, ha j hj]
      rfl
    · rw [getD_set_ne (fun hh => hjr hh.symm), getD_map2 _ [] [] hj]
      rw [List.length_append, ha j hj]
      rfl

theorem setCellTable_read_other {t : Table} (ha : Aligned t) {ridx : Nat}
    (k : String) (v : Cell) {j : Nat} (hj : j ≠ ridx) (c : String) :
    getCellN (setCellTable t ridx k v).cols ((setCellTable t ridx k v).rows.getD j []) c =
      getCellN t.cols (t.rows.getD j []) c := by
  unfold setCellTable
  cases hc : colIdx t.cols k with
  | some i =>
    simp only
    rw [getD_set_ne (fun hh => hj hh.symm)]
  | none =>
    simp only
    rw [getD_set_ne (fun hh => hj hh.symm)]
    by_cases hjlen : j < t.rows.length
    · rw [getD_map2 _ [] [] hjlen]
      by_cases hcm : c ∈ t.cols
      · rcases colIdx_mem hcm with ⟨i2, hi2, hlt2⟩
        rw [getCellN_some (colIdx_append_left [k] hi2), getCellN_some hi2]
        exact getD_append_left (by rw [ha j hjlen]; exact hlt2)
      · by_cases hck : c = k
        · subst hck
          rw [getCellN_not_mem hcm]
          have hidx : colIdx (t.cols ++ [c]) c = some (0 + t.cols.length) := by
            rw [colIdx_append_right [c] (colIdx_not_mem hcm)]
            rw [show colIdx [c] c = some 0 by simp [colIdx_cons]]
            rfl
          rw [getCellN_some hidx]
          rw [Nat.zero_add, ← ha j hjlen]
          simpa using getD_append_right (t.rows.getD j []) [Cell.empty] 0
        · rw [getCellN_not_mem hcm, getCellN_not_mem]
          intro hmem
          rcases List.mem_append.mp hmem with hmem | hmem
          · exact hcm hmem
          · simp at hmem; exact hck hmem
    · have hglen : t.rows.length ≤ j := by omega
      rw [getD_ge (by simpa using hglen), getD_ge hglen, getCellN_nil_row, getCellN_nil_row]

end Finance.Ledger

namespace Finance.Ledger

theorem colIdx_ne_of_ne {cols : List String} {c k : String} {i i2 : Nat}
    (hk : colIdx cols k = some i) (hc : colIdx cols c = some i2) (hne : c ≠ k) :
    i2 ≠ i := by
  intro hh
  subst hh
  exact hne ((colIdx_getD hc).symm.trans (colIdx_getD hk))

theorem setCellTable_read_self_self {t : Table} (ha : Aligned t) {ridx : Nat}
    (hr : ridx < t.rows.length) (k : String) (v : Cell) :
    getCellN (setCellTable t ridx k v).cols ((setCellTable t ridx k v).rows.getD ridx []) k =
      v := by
  unfold setCellTable
  cases hc : colIdx t.cols k with
  | some i =>
    simp only
    rw [getD_set_self hr, getCellN_some hc]
    exact getD_set_self (by rw [ha ridx hr]; exact colIdx_lt hc) v
  | none =>
    simp only
    rw [getD_set_self (by simpa using hr)]
    have hidx : colIdx (t.cols ++ [k]) k = some (0 + t.cols.length) := by
      rw [colIdx_append_right [k] hc]
      rw [show colIdx [k] k = some 0 by simp [colIdx_cons]]
      rfl
    rw [getCellN_some hidx, Nat.zero_add, ← ha ridx hr]
    simpa using getD_append_right (t.rows.getD ridx []) [v] 0

theorem setCellTable_read_self_other {t : Table} (ha : Aligned t) {ridx : Nat}
    (hr : ridx < t.rows.length) {k : String} (v : Cell) {c : String} (hck : c ≠ k) :
    getCellN (setCellTable t ridx k v).cols ((setCellTable t ridx k v).rows.getD ridx []) c =
      getCellN t.cols (t.rows.getD ridx []) c := by
  unfold setCellTable
  cases hc : colIdx t.cols k with
  | some i =>
    simp only
    rw [getD_set_self hr]
    cases hc2 : colIdx t.cols c with
    | some i2 =>
      rw [getCellN_some hc2, getCellN_some hc2]
      exact getD_set_ne (fun hh => colIdx_ne_of_ne hc hc2 hck hh.symm) v
    | none =>
      unfold getCellN
      rw [hc2]
  | none =>
    simp only
    rw [getD_set_self (by simpa using hr)]
    by_cases hcm : c ∈ t.cols
    · rcases colIdx_mem hcm with ⟨i2, hi2, hlt2⟩
      rw [getCellN_some (colIdx_append_left [k] hi2), getCellN_some hi2]
      exact getD_append_left (by rw [ha ridx hr]; exact hlt2)
    · rw [getCellN_not_mem hcm, getCellN_not_mem]
      intro hmem
      rcases List.mem_append.mp hmem with hmem | hmem
      · exact hcm hmem
      · simp at hmem; exact hck hmem

end Finance.Ledger

namespace Finance.Ledger

theorem extrasRel_not_mem {p : List (String × Cell)} :
    ∀ {cols : List String} {c : String}, c ∈ extrasRel cols p → c ∉ cols := by
  induction p with
  | nil => intro cols c hc; cases hc
  | cons kv rest ih =>
    intro cols c hc
    obtain ⟨k, v⟩ := kv
    unfold extrasRel at hc
    split at hc
    · exact ih hc
    · rename_i hcond
      rcases List.mem_cons.mp hc with rfl | hc
      · intro hm
        exact hcond (by simp [hm])
      · intro hm
        exact (ih hc) (List.mem_append_left _ hm)

theorem extrasRel_nodup (p : List (String × Cell)) :
    ∀ cols : List String, (extrasRel cols p).Nodup := by
  induction p with
  | nil => intro cols; exact List.nodup_nil
  | cons kv rest ih =>
    intro cols
    obtain ⟨k, v⟩ := kv
    unfold extrasRel
    split
    · exact ih cols
    · refine List.nodup_cons.mpr ⟨fun hm => ?_, ih (cols ++ [k])⟩
      exact (extrasRel_not_mem hm) (List.mem_append_right _ (by simp))

theorem extrasRel_nil {p : List (String × Cell)} :
    ∀ {cols : List String}, (∀ kv ∈ p, kv.1 ∈ cols) → extrasRel cols p = [] := by
  induction p with
  | nil => intro cols _; rfl
  | cons kv rest ih =>
    intro cols hall
    obtain ⟨k, v⟩ := kv
    unfold extrasRel
    rw [if_pos]
    · exact ih fun kv2 hm => hall kv2 (List.mem_cons_of_mem _ hm)
    · have : k ∈ cols := hall (k, v) (List.mem_cons_self _ _)
      simp [this]

theorem extrasRel_cons (cols : List String) (k : String) (v : Cell)
    (rest : List (String × Cell)) :
    extrasRel cols ((k, v) :: rest) =
      if isBlankVal v || cols.contains k then extrasRel cols rest
      else k :: extrasRel (cols ++ [k]) rest := rfl

theorem effVal_cons (k : String) (w : Cell) (rest : List (String × Cell)) (c : String) :
    effVal ((k, w) :: rest) c =
      match effVal rest c with
      | some w2 => some w2
      | none => if k = c ∧ isBlankVal w = false then some w else none := rfl

theorem effVal_mem {p : List (String × Cell)} {c : String} {v : Cell}
    (h : effVal p c = some v) : (c, v) ∈ p ∧ isBlankVal v = false := by
  induction p with
  | nil => cases h
  | cons kv rest ih =>
    obtain ⟨k, w⟩ := kv
    rw [effVal_cons] at h
    cases he : effVal rest c with
    | some w2 =>
      rw [he] at h
      simp only [Option.some.injEq] at h
      subst h
      exact ⟨List.mem_cons_of_mem _ (ih he).1, (ih he).2⟩
    | none =>
      rw [he] at h
      simp only at h
      by_cases hcond : k = c ∧ isBlankVal w = false
      · rw [if_pos hcond] at h
        simp only [Option.some.injEq] at h
        subst h
        exact ⟨by rw [hcond.1]; exact List.mem_cons_self _ _, hcond.2⟩
      · rw [if_neg hcond] at h
        cases h

theorem mem_extras_effVal {p : List (String × Cell)} :
    ∀ {cols : List String} {c : String}, c ∈ extrasRel cols p →
      ∃ v, effVal p c = some v := by
  induction p with
  | nil => intro cols c hc; cases hc
  | cons kv rest ih =>
    intro cols c hc
    obtain ⟨k, v⟩ := kv
    unfold extrasRel at hc
    split at hc
    · rcases ih hc with ⟨w, hw⟩
      exact ⟨w, by rw [effVal_cons, hw]⟩
    · rename_i hcond
      rcases List.mem_cons.mp hc with rfl | hc
      · cases he : effVal rest c with
        | some w => exact ⟨w, by rw [effVal_cons, he]⟩
        | none =>
          refine ⟨v, ?_⟩
          simp only [Bool.or_eq_true, not_or] at hcond
          rw [effVal_cons, he]
          exact if_pos ⟨rfl, by simpa using hcond.1⟩
      · rcases ih hc with ⟨w, hw⟩
        exact ⟨w, by rw [effVal_cons, hw]⟩

theorem applyPayloadEx_cols (p : List (String × Cell)) :
    ∀ (t : Table) (ridx : Nat),
      (applyPayloadEx t ridx p).cols = t.cols ++ extrasRel t.cols p := by
  induction p with
  | nil => intro t ridx; simp [applyPayloadEx, extrasRel]
  | cons kv rest ih =>
    intro t ridx
    obtain ⟨k, v⟩ := kv
    simp only [applyPayloadEx]
    by_cases hb : isBlankVal v
    · rw [if_pos hb, ih, extrasRel_cons, if_pos (by simp [hb])]
    · rw [if_neg hb]
      by_cases hk : k ∈ t.cols
      · rw [ih, setCellTable_cols_mem hk, extrasRel_cons, if_pos (by simp [hk])]
      · rw [ih, setCellTable_cols_not_mem hk, extrasRel_cons,
          if_neg (by simp [hb, hk]), List.append_assoc]
        rfl

theorem applyPayloadEx_rows_len (p : List (String × Cell)) :
    ∀ (t : Table) (ridx : Nat),
      (applyPayloadEx t ridx p).rows.length = t.rows.length := by
  induction p with
  | nil => intro t ridx; rfl
  | cons kv rest ih =>
    intro t ridx
    obtain ⟨k, v⟩ := kv
    simp only [applyPayloadEx]
    by_cases hb : isBlankVal v
    · rw [if_pos hb, ih]
    · rw [if_neg hb, ih, setCellTable_rows_len]

theorem applyPayloadEx_aligned (p : List (String × Cell)) :
    ∀ {t : Table}, Aligned t → ∀ ridx : Nat, Aligned (applyPayloadEx t ridx p) := by
  induction p with
  | nil => intro t ha ridx; exact ha
  | cons kv rest ih =>
    intro t ha ridx
    obtain ⟨k, v⟩ := kv
    simp only [applyPayloadEx]
    by_cases hb : isBlankVal v
    · rw [if_pos hb]; exact ih ha ridx
    · rw [if_neg hb]; exact ih (setCellTable_aligned ha ridx k v) ridx

theorem applyPayloadEx_read_other (p : List (String × Cell)) :
    ∀ {t : Table}, Aligned t → ∀ {ridx j : Nat}, j ≠ ridx → ∀ c : String,
      getCellN (applyPayloadEx t ridx p).cols
          ((applyPayloadEx t ridx p).rows.getD j []) c =
        getCellN t.cols (t.rows.getD j []) c := by
  induction p with
  | nil => intro t _ ridx j _ c; rfl
  | cons kv rest ih =>
    intro t ha ridx j hj c
    obtain ⟨k, v⟩ := kv
    simp only [applyPayloadEx]
    by_cases hb : isBlankVal v
    · rw [if_pos hb]; exact ih ha hj c
    · rw [if_neg hb]
      rw [ih (setCellTable_aligned ha ridx k v) hj c]
      exact setCellTable_read_other ha k v hj c

theorem applyPayloadEx_read_self (p : List (String × Cell)) :
    ∀ {t : Table}, Aligned t → ∀ {ridx : Nat}, ridx < t.rows.length → ∀ c : String,
      getCellN (applyPayloadEx t ridx p).cols
          ((applyPayloadEx t ridx p).rows.getD ridx []) c =
        match effVal p c with
        | some v => v
        | none => getCellN t.cols (t.rows.getD ridx []) c := by
  induction p with
  | nil => intro t _ ridx _ c; rfl
  | cons kv rest ih =>
    intro t ha ridx hr c
    obtain ⟨k, v⟩ := kv
    simp only [applyPayloadEx]
    by_cases hb : isBlankVal v
    · rw [if_pos hb, ih ha hr c]
      cases he : effVal rest c with
      | some w => rw [effVal_cons, he]
      | none =>
        rw [effVal_cons, he]
        simp only
        rw [if_neg]
        intro hcond
        rw [hcond.2] at hb
        cases hb
    · rw [if_neg hb]
      have ha2 := setCellTable_aligned ha ridx k v
      have hr2 : ridx < (setCellTable t ridx k v).rows.length := by
        rw [setCellTable_rows_len]; exact hr
      rw [ih ha2 hr2 c]
      cases he : effVal rest c with
      | some w => rw [effVal_cons, he]
      | none =>
        rw [effVal_cons, he]
        simp only
        by_cases hkc : k = c
        · subst hkc
          rw [if_pos ⟨rfl, by simpa using hb⟩]
          exact setCellTable_read_self_self ha hr k v
        · rw [if_neg (fun hcond => hkc hcond.1)]
          exact setCellTable_read_self_other ha hr v (fun hh => hkc hh.symm)

end Finance.Ledger

namespace Finance.Ledger

theorem finalizeRow_length (cols : List String) :
    ∀ r : List Cell, (finalizeRow cols r).length = cols.length := by
  induction cols with
  | nil => intro r; cases r <;> rfl
  | cons c cs ih =>
    intro r
    cases r with
    | nil => simp [finalizeRow, ih]
    | cons w ws => simp [finalizeRow, ih]

theorem finalize_cols (t : Table) : (_finalize_numbers t).cols = t.cols := rfl

theorem finalize_rows_len (t : Table) :
    (_finalize_numbers t).rows.length = t.rows.length := by
  simp [_finalize_numbers]

theorem finalize_aligned (t : Table) : Aligned (_finalize_numbers t) := by
  intro j hj
  rw [finalize_rows_len] at hj
  simp only [_finalize_numbers]
  rw [getD_map2 _ [] [] hj, finalizeRow_length]

theorem finalize_read (t : Table) (j : Nat) (c : String) :
    getCellN (_finalize_numbers t).cols ((_finalize_numbers t).rows.getD j []) c =
      if NUMCOLS.contains c then finalizeCell (getCellN t.cols (t.rows.getD j []) c)
      else getCellN t.cols (t.rows.getD j []) c := by
  by_cases hj : j < t.rows.length
  · simp only [_finalize_numbers]
    rw [getD_map2 _ [] [] hj]
    exact getCellN_finalizeRow t.cols (t.rows.getD j []) c
  · have hge : t.rows.length ≤ j := by omega
    simp only [_finalize_numbers]
    rw [getD_ge (by simpa using hge), getD_ge hge, getCellN_nil_row]
    by_cases hn : NUMCOLS.contains c
    · rw [if_pos hn]; rfl
    · rw [if_neg hn]

theorem save_cols (t : Table) : (_save_with_excel_format t).cols = t.cols := by
  unfold _save_with_excel_format
  split <;> rfl

theorem save_rows_len (t : Table) :
    (_save_with_excel_format t).rows.length = t.rows.length := by
  unfold _save_with_excel_format
  split <;> simp

theorem save_aligned {t : Table} (ha : Aligned t) : Aligned (_save_with_excel_format t) := by
  unfold _save_with_excel_format
  split
  · rename_i oi fi hoi hfi
    intro j hj
    simp only [List.length_map] at hj
    simp only
    rw [getD_map2 _ [] [] hj]
    by_cases ht : truthy (getCell (t.rows.getD j []) fi)
    · rw [if_pos ht, List.length_set]
      exact ha j hj
    · rw [if_neg ht]
      exact ha j hj
  · exact ha

theorem save_read_other (t : Table) (j : Nat) {c : String} (hc : c ≠ "Open File") :
    getCellN (_save_with_excel_format t).cols
        ((_save_with_excel_format t).rows.getD j []) c =
      getCellN t.cols (t.rows.getD j []) c := by
  unfold _save_with_excel_format
  split
  · rename_i oi fi hoi hfi
    simp only
    by_cases hj : j < t.rows.length
    · rw [getD_map2 _ [] [] hj]
      by_cases ht : truthy (getCell (t.rows.getD j []) fi)
      · rw [if_pos ht]
        cases hc2 : colIdx t.cols c with
        | some i2 =>
          rw [getCellN_some hc2, getCellN_some hc2]
          exact getD_set_ne (fun hh => colIdx_ne_of_ne hoi hc2 hc hh.symm) _
        | none =>
          unfold getCellN
          rw [hc2]
      · rw [if_neg ht]
    · have hge : t.rows.length ≤ j := by omega
      rw [getD_ge (by simpa using hge), getD_ge hge]
  · rfl

theorem save_read_openfile {t : Table} (ha : Aligned t) (j : Nat) {oi fi : Nat}
    (hoi : colIdx t.cols "Open File" = some oi)
    (hfi : colIdx t.cols "Filename" = some fi) :
    getCellN (_save_with_excel_format t).cols
        ((_save_with_excel_format t).rows.getD j []) "Open File" =
      if truthy (getCellN t.cols (t.rows.getD j []) "Filename") then Cell.str "Open"
      else getCellN t.cols (t.rows.getD j []) "Open File" := by
  unfold _save_with_excel_format
  rw [hoi, hfi]
  simp only
  by_cases hj : j < t.rows.length
  · rw [getD_map2 _ [] [] hj]
    have hNF : getCellN t.cols (t.rows.getD j []) "Filename" =
        getCell (t.rows.getD j []) fi := getCellN_some hfi _
    rw [hNF]
    by_cases ht : truthy (getCell (t.rows.getD j []) fi)
    · rw [if_pos ht, if_pos ht, getCellN_some hoi]
      exact getD_set_self (by rw [ha j hj]; exact colIdx_lt hoi) _
    · rw [if_neg ht, if_neg ht]
  · have hge : t.rows.length ≤ j := by omega
    rw [getD_ge (by simpa using hge), getD_ge hge, getCellN_nil_row, getCellN_nil_row]
    rfl

theorem findIdx0_of {α : Type} {p : α → Bool} {l : List α} {i : Nat} (d : α)
    (hi : i < l.length) (hp : p (l.getD i d) = true)
    (hbef : ∀ j, j < i → p (l.getD j d) = false) : l.findIdx? p = some i := by
  induction l generalizing i with
  | nil => cases hi
  | cons a as ih =>
    cases i with
    | zero =>
      rw [findIdx0_cons, if_pos]
      exact hp
    | succ i =>
      rw [findIdx0_cons, if_neg]
      · rw [ih (by simpa using hi) hp (fun j hj => hbef (j + 1) (by omega))]
        rfl
      · simpa using hbef 0 (by omega)

theorem findRowIdx_some_spec {t : Table} {key : String} {i : Nat}
    (h : findRowIdx t key = some i) :
    i < t.rows.length ∧
      getCellN t.cols (t.rows.getD i []) "Filename" = Cell.str key ∧
      ∀ j, j < i → getCellN t.cols (t.rows.getD j []) "Filename" ≠ Cell.str key := by
  refine ⟨findIdx0_lt h, ?_, ?_⟩
  · have := findIdx0_getD [] h
    exact of_decide_eq_true this
  · intro j hj
    have := findIdx0_before [] h hj
    exact of_decide_eq_false this

theorem findRowIdx_of {t : Table} {key : String} {i : Nat} (hi : i < t.rows.length)
    (hp : getCellN t.cols (t.rows.getD i []) "Filename" = Cell.str key)
    (hbef : ∀ j, j < i → getCellN t.cols (t.rows.getD j []) "Filename" ≠ Cell.str key) :
    findRowIdx t key = some i := by
  exact findIdx0_of [] hi (decide_eq_true hp) (fun j hj => decide_eq_false (hbef j hj))

theorem findRowIdx_none_spec {t : Table} {key : String} (h : findRowIdx t key = none) :
    ∀ j, j < t.rows.length → getCellN t.cols (t.rows.getD j []) "Filename" ≠ Cell.str key := by
  intro j hj
  unfold findRowIdx at h
  rw [List.findIdx?_eq_none_iff] at h
  have hm : t.rows.getD j [] ∈ t.rows := by
    rw [List.getD_eq_getElem t.rows [] hj]
    exact List.getElem_mem hj
  have := h _ hm
  exact of_decide_eq_false this

theorem findRowIdx_none_of {t : Table} {key : String}
    (h : ∀ j, j < t.rows.length → getCellN t.cols (t.rows.getD j []) "Filename" ≠ Cell.str key) :
    findRowIdx t key = none := by
  unfold findRowIdx
  apply findIdx0_none
  intro r hr
  rcases List.getElem_of_mem hr with ⟨j, hj, hget⟩
  apply decide_eq_false
  have := h j hj
  rw [List.getD_eq_getElem t.rows [] hj, hget] at this
  exact this

end Finance.Ledger

namespace Finance.Ledger

theorem lookup_cons (a : String) (b : Cell) (l : List (String × Cell)) (c : String) :
    ((a, b) :: l).lookup c = if c = a then some b else l.lookup c := by
  show (match c == a with | true => some b | false => l.lookup c) = _
  cases hx : c == a with
  | true => rw [if_pos (eq_of_beq hx)]
  | false =>
    rw [if_neg]
    intro hh
    rw [hh] at hx
    simp at hx

theorem lookup_append (l1 l2 : List (String × Cell)) (c : String) :
    (l1 ++ l2).lookup c =
      match l1.lookup c with
      | some v => some v
      | none => l2.lookup c := by
  induction l1 with
  | nil => rfl
  | cons p rest ih =>
    obtain ⟨a, b⟩ := p
    rw [List.cons_append, lookup_cons, lookup_cons]
    by_cases h : c = a
    · rw [if_pos h, if_pos h]
    · rw [if_neg h, if_neg h, ih]

theorem lookup_none_of_no_key {l : List (String × Cell)}
    {c : String} (h : ∀ p ∈ l, p.1 ≠ c) : l.lookup c = none := by
  induction l with
  | nil => rfl
  | cons p rest ih =>
    obtain ⟨a, b⟩ := p
    rw [lookup_cons, if_neg (fun hh => h (a, b) (List.mem_cons_self _ _) hh.symm)]
    exact ih fun q hq => h q (List.mem_cons_of_mem _ hq)

theorem lookup_map_self (l : List String) (f : String → Cell) (c : String) :
    (l.map fun h => (h, f h)).lookup c = if c ∈ l then some (f c) else none := by
  induction l with
  | nil => rfl
  | cons a rest ih =>
    simp only [List.map_cons]
    rw [lookup_cons, ih]
    by_cases h : c = a
    · subst h
      simp
    · rw [if_neg h]
      by_cases hm : c ∈ rest
      · rw [if_pos hm, if_pos (List.mem_cons_of_mem _ hm)]
      · rw [if_neg hm, if_neg (by simp [h, hm])]

theorem dictSet_keys_mem {d : List (String × Cell)} {k : String}
    (hk : k ∈ d.map Prod.fst) (v : Cell) :
    (dictSet d k v).map Prod.fst = d.map Prod.fst := by
  unfold dictSet
  rw [if_pos]
  · rw [List.map_map]
    apply List.map_congr_left
    intro p _
    by_cases hp : p.1 = k
    · simp [hp]
    · simp [hp]
  · rcases List.mem_map.mp hk with ⟨p, hp, hfst⟩
    exact List.any_eq_true.mpr ⟨p, hp, by simp [hfst]⟩

theorem dictSet_keys_not_mem {d : List (String × Cell)} {k : String}
    (hk : k ∉ d.map Prod.fst) (v : Cell) :
    (dictSet d k v).map Prod.fst = d.map Prod.fst ++ [k] := by
  unfold dictSet
  rw [if_neg]
  · simp
  · intro hany
    rcases List.any_eq_true.mp hany with ⟨p, hp, hfst⟩
    exact hk (List.mem_map.mpr ⟨p, hp, by simpa using hfst⟩)

theorem lookup_dictSet (d : List (String × Cell)) (k : String) (v : Cell) (c : String) :
    (dictSet d k v).lookup c = if c = k then some v else d.lookup c := by
  unfold dictSet
  by_cases hany : d.any (fun p => p.1 = k) = true
  · rw [if_pos hany]
    by_cases hck : c = k
    · subst hck
      rw [if_pos rfl]
      rcases List.any_eq_true.mp hany with ⟨p, hp, hfst⟩
      have hkey : c ∈ d.map Prod.fst :=
        List.mem_map.mpr ⟨p, hp, by simpa using hfst⟩
      clear hany hp hfst
      induction d with
      | nil => cases hkey
      | cons q rest ih =>
        obtain ⟨a, b⟩ := q
        by_cases ha : a = c
        · subst ha
          rw [show List.map (fun p => if p.1 = a then (a, v) else p) ((a, b) :: rest) =
              (a, v) :: List.map (fun p => if p.1 = a then (a, v) else p) rest by simp,
            lookup_cons, if_pos rfl]
        · rw [show List.map (fun p => if p.1 = c then (c, v) else p) ((a, b) :: rest) =
              (a, b) :: List.map (fun p => if p.1 = c then (c, v) else p) rest by simp [ha],
            lookup_cons, if_neg (fun hh => ha hh.symm)]
          rcases List.mem_cons.mp hkey with hh | hkey2
          · exact absurd hh.symm ha
          · exact ih hkey2
    · rw [if_neg hck]
      clear hany
      induction d with
      | nil => rfl
      | cons q rest ih =>
        obtain ⟨a, b⟩ := q
        by_cases ha : a = k
        · rw [show List.map (fun p => if p.1 = k then (k, v) else p) ((a, b) :: rest) =
              (k, v) :: List.map (fun p => if p.1 = k then (k, v) else p) rest by
                simp [ha],
            lookup_cons, if_neg hck, lookup_cons, if_neg (fun hh => hck (hh.trans ha))]
          exact ih
        · rw [show List.map (fun p => if p.1 = k then (k, v) else p) ((a, b) :: rest) =
              (a, b) :: List.map (fun p => if p.1 = k then (k, v) else p) rest by
                simp [ha],
            lookup_cons, lookup_cons]
          by_cases hca : c = a
          · rw [if_pos hca, if_pos hca]
          · rw [if_neg hca, if_neg hca]
            exact ih
  · rw [if_neg hany]
    have hnok : ∀ p ∈ d, p.1 ≠ k := by
      intro p hp hh
      exact hany (List.any_eq_true.mpr ⟨p, hp, by simp [hh]⟩)
    rw [lookup_append]
    by_cases hck : c = k
    · subst hck
      rw [lookup_none_of_no_key fun p hp hh => hnok p hp hh, if_pos rfl]
      show List.lookup c [(c, v)] = some v
      rw [lookup_cons, if_pos rfl]
    · rw [if_neg hck]
      cases hd : d.lookup c with
      | some w => rfl
      | none =>
        show List.lookup c [(k, v)] = none
        rw [lookup_cons, if_neg hck]
        rfl

theorem foldl_payload_keys (p : List (String × Cell)) :
    ∀ base : List (String × Cell),
      ((p.foldl (fun d kv => if isBlankVal kv.2 then d else dictSet d kv.1 kv.2) base).map
          Prod.fst) =
        base.map Prod.fst ++ extrasRel (base.map Prod.fst) p := by
  induction p with
  | nil => intro base; simp [extrasRel]
  | cons kv rest ih =>
    intro base
    obtain ⟨k, v⟩ := kv
    simp only [List.foldl_cons]
    rw [extrasRel_cons]
    by_cases hb : isBlankVal v
    · rw [if_pos hb, if_pos (by simp [hb]), ih]
    · rw [if_neg hb]
      by_cases hk : k ∈ base.map Prod.fst
      · rw [if_pos (by simp [hb, hk]), ih, dictSet_keys_mem hk]
      · rw [if_neg (by simp [hb, hk]), ih, dictSet_keys_not_mem hk, List.append_assoc]
        rfl

theorem foldl_payload_lookup (p : List (String × Cell)) :
    ∀ (base : List (String × Cell)) (c : String),
      (p.foldl (fun d kv => if isBlankVal kv.2 then d else dictSet d kv.1 kv.2) base).lookup
          c =
        match effVal p c with
        | some v => some v
        | none => base.lookup c := by
  induction p with
  | nil => intro base c; rfl
  | cons kv rest ih =>
    intro base c
    obtain ⟨k, v⟩ := kv
    simp only [List.foldl_cons]
    rw [effVal_cons]
    cases he : effVal rest c with
    | some w =>
      simp only
      by_cases hb : isBlankVal v
      · rw [if_pos hb, ih, he]
      · rw [if_neg hb, ih, he]
    | none =>
      simp only
      by_cases hb : isBlankVal v
      · rw [if_pos hb, ih, he, if_neg]
        intro hcond
        rw [hcond.2] at hb
        cases hb
      · rw [if_neg hb, ih, he]
        simp only
        rw [lookup_dictSet]
        by_cases hck : c = k
        · subst hck
          rw [if_pos rfl, if_pos ⟨rfl, by simpa using hb⟩]
        · rw [if_neg hck, if_neg (fun hcond => hck hcond.1.symm)]

theorem newRowDict_keys (key : String) (p : List (String × Cell)) :
    (newRowDict key p).map Prod.fst = HEADERS ++ extrasOf p := by
  unfold newRowDict extrasOf
  rw [foldl_payload_keys]
  have h0 : (HEADERS.map fun h => (h, Cell.str "")).map Prod.fst = HEADERS := by
    decide
  have h1 : (dictSet (HEADERS.map fun h => (h, Cell.str "")) "Filename"
      (Cell.str key)).map Prod.fst = HEADERS := by
    rw [dictSet_keys_mem (by rw [h0]; decide), h0]
  have h2 : (dictSet (dictSet (HEADERS.map fun h => (h, Cell.str "")) "Filename"
      (Cell.str key)) "Open File" (Cell.str key)).map Prod.fst = HEADERS := by
    rw [dictSet_keys_mem (by rw [h1]; decide), h1]
  have h3 : (dictSet (dictSet (dictSet (HEADERS.map fun h => (h, Cell.str ""))
      "Filename" (Cell.str key)) "Open File" (Cell.str key)) "Source"
      (Cell.str "Bangkok Bank Receipt")).map Prod.fst = HEADERS := by
    rw [dictSet_keys_mem (by rw [h2]; decide), h2]
  rw [h3]

theorem newRowDict_lookup (key : String) (p : List (String × Cell)) (c : String) :
    (newRowDict key p).lookup c =
      match effVal p c with
      | some v => some v
      | none =>
        if c = "Source" then some (Cell.str "Bangkok Bank Receipt")
        else if c = "Open File" then some (Cell.str key)
        else if c = "Filename" then some (Cell.str key)
        else if c ∈ HEADERS then some (Cell.str "") else none := by
  unfold newRowDict
  rw [foldl_payload_lookup]
  cases he : effVal p c with
  | some w => rfl
  | none =>
    simp only
    rw [lookup_dictSet, lookup_dictSet, lookup_dictSet, lookup_map_self]

end Finance.Ledger

namespace Finance.Ledger

theorem getD_replicate {α : Type} (a : α) :
    ∀ (n i : Nat), (List.replicate n a).getD i a = a := by
  intro n
  induction n with
  | zero => intro i; cases i <;> rfl
  | succ n ih =>
    intro i
    cases i with
    | zero => rfl
    | succ i => exact ih i

theorem concatRow_cols (t : Table) (d : List (String × Cell)) :
    (concatRow t d).cols =
      t.cols ++ (d.map Prod.fst).filter fun k => !t.cols.contains k := rfl

theorem concatRow_rows_len (t : Table) (d : List (String × Cell)) :
    (concatRow t d).rows.length = t.rows.length + 1 := by
  simp [concatRow]

theorem concatRow_aligned {t : Table} (ha : Aligned t) (d : List (String × Cell)) :
    Aligned (concatRow t d) := by
  intro j hj
  rw [concatRow_rows_len] at hj
  show ((t.rows.map _ ++ _).getD j []).length = (t.cols ++ _).length
  by_cases hjl : j < t.rows.length
  · rw [getD_append_left (by simpa using hjl), getD_map2 _ [] [] hjl]
    simp only [List.length_append, List.length_replicate]
    rw [ha j hjl]
  · have hje : j = t.rows.length := by omega
    subst hje
    have hlen : (t.rows.map fun r =>
        r ++ List.replicate (((d.map Prod.fst).filter fun k =>
          !t.cols.contains k)).length Cell.empty).length = t.rows.length := by simp
    rw [← hlen]
    rw [show (t.rows.map fun r =>
        r ++ List.replicate (((d.map Prod.fst).filter fun k =>
          !t.cols.contains k)).length Cell.empty).length =
      (t.rows.map fun r =>
        r ++ List.replicate (((d.map Prod.fst).filter fun k =>
          !t.cols.contains k)).length Cell.empty).length + 0 from rfl]
    rw [getD_append_right]
    simp

theorem concatRow_read_old {t : Table} (ha : Aligned t) (d : List (String × Cell))
    {j : Nat} (hj : j < t.rows.length) (c : String) :
    getCellN (concatRow t d).cols ((concatRow t d).rows.getD j []) c =
      if c ∈ t.cols then getCellN t.cols (t.rows.getD j []) c else Cell.empty := by
  show getCellN (t.cols ++ _) ((t.rows.map _ ++ _).getD j []) c = _
  rw [getD_append_left (by simpa using hj), getD_map2 _ [] [] hj]
  by_cases hcm : c ∈ t.cols
  · rw [if_pos hcm]
    rcases colIdx_mem hcm with ⟨i2, hi2, hlt2⟩
    rw [getCellN_some (colIdx_append_left _ hi2), getCellN_some hi2]
    exact getD_append_left (by rw [ha j hj]; exact hlt2)
  · rw [if_neg hcm]
    cases hc2 : colIdx (t.cols ++ (d.map Prod.fst).filter fun k => !t.cols.contains k) c with
    | none =>
      unfold getCellN
      rw [hc2]
    | some i2 =>
      rw [getCellN_some hc2]
      rw [colIdx_append_right _ (colIdx_not_mem hcm)] at hc2
      cases hce : colIdx ((d.map Prod.fst).filter fun k => !t.cols.contains k) c with
      | none => rw [hce] at hc2; cases hc2
      | some ie =>
        rw [hce] at hc2
        obtain rfl : ie + t.cols.length = i2 := by simpa using hc2
        rw [← ha j hj, Nat.add_comm ie, getD_append_right]
        exact getD_replicate Cell.empty _ ie

theorem getD_cons_zero {α : Type} (x : α) (l : List α) (d : α) :
    (x :: l).getD 0 d = x := rfl

theorem concatRow_rows (t : Table) (d : List (String × Cell)) :
    (concatRow t d).rows =
      t.rows.map (fun r => r ++ List.replicate
          (((d.map Prod.fst).filter fun k => !t.cols.contains k)).length Cell.empty) ++
        [(t.cols ++ (d.map Prod.fst).filter fun k => !t.cols.contains k).map fun c =>
          match d.lookup c with
          | some v => v
          | none => Cell.empty] := rfl

theorem concatRow_read_new (t : Table) (d : List (String × Cell)) (c : String) :
    getCellN (concatRow t d).cols ((concatRow t d).rows.getD t.rows.length []) c =
      match d.lookup c with
      | some v => v
      | none => Cell.empty := by
  rw [concatRow_cols, concatRow_rows]
  have hlen : (t.rows.map fun r =>
      r ++ List.replicate (((d.map Prod.fst).filter fun k =>
        !t.cols.contains k)).length Cell.empty).length = t.rows.length := by simp
  rw [← hlen]
  rw [show (t.rows.map fun r =>
      r ++ List.replicate (((d.map Prod.fst).filter fun k =>
        !t.cols.contains k)).length Cell.empty).length =
    (t.rows.map fun r =>
      r ++ List.replicate (((d.map Prod.fst).filter fun k =>
        !t.cols.contains k)).length Cell.empty).length + 0 from rfl]
  rw [getD_append_right, getD_cons_zero]
  by_cases hcm : c ∈ t.cols ++ (d.map Prod.fst).filter fun k => !t.cols.contains k
  · rcases colIdx_mem hcm with ⟨i2, hi2, hlt2⟩
    rw [getCellN_some hi2]
    rw [getD_map2 _ Cell.empty "" hlt2, colIdx_getD hi2]
  · rw [getCellN_not_mem hcm]
    have hnk : ∀ p ∈ d, p.1 ≠ c := by
      intro p hp hh
      apply hcm
      by_cases hcc : c ∈ t.cols
      · exact List.mem_append_left _ hcc
      · refine List.mem_append_right _ (List.mem_filter.mpr ⟨?_, ?_⟩)
        · exact List.mem_map.mpr ⟨p, hp, hh⟩
        · simp [hcc]
    rw [lookup_none_of_no_key hnk]

end Finance.Ledger

namespace Finance.Ledger

theorem upsert_eq_some {t : Table} {key : String} {i : Nat} (p : List (String × Cell))
    (hf : findRowIdx (_ensure_headers t) key = some i) :
    _upsert key p t =
      _save_with_excel_format
        (_finalize_numbers (applyPayloadEx (_ensure_headers t) i p)) := by
  unfold _upsert
  simp only [hf]

theorem upsert_eq_none {t : Table} {key : String} (p : List (String × Cell))
    (hf : findRowIdx (_ensure_headers t) key = none) :
    _upsert key p t =
      _save_with_excel_format
        (_finalize_numbers (concatRow (_ensure_headers t) (newRowDict key p))) := by
  unfold _upsert
  simp only [hf]

theorem upsert_cols (key : String) (p : List (String × Cell)) (t : Table) :
    (_upsert key p t).cols = HEADERS ++ extrasOf p := by
  cases hf : findRowIdx (_ensure_headers t) key with
  | some i =>
    rw [upsert_eq_some p hf, save_cols, finalize_cols, applyPayloadEx_cols, ensure_cols]
    rfl
  | none =>
    rw [upsert_eq_none p hf, save_cols, finalize_cols, concatRow_cols, ensure_cols,
      newRowDict_keys, List.filter_append]
    rw [show HEADERS.filter (fun k => !HEADERS.contains k) = [] from by decide,
      List.nil_append, List.filter_eq_self.mpr]
    intro a ha2
    have hnm : a ∉ HEADERS := extrasRel_not_mem ha2
    simp [hnm]

end Finance.Ledger

namespace Finance

open Ledger

/-- C5, amended: for an update record whose every field name lies in the fixed
schema `HEADERS`, an upsert leaves the column list exactly `HEADERS` — the
schema of every saved workbook — for every input dataset and key. -/
theorem C5_schema_amended (t : Ledger.Table) (key : String)
    (payload : List (String × Ledger.Cell))
    (hkeys : ∀ kv ∈ payload, kv.1 ∈ Ledger.HEADERS) :
    (Ledger._upsert key payload t).cols = Ledger.HEADERS := by
  rw [Ledger.upsert_cols]
  unfold Ledger.extrasOf
  rw [Ledger.extrasRel_nil hkeys, List.append_nil]

/-- C5 witness: the amended schema-preservation theorem evaluated on a
one-row ledger and a `Date` update. -/
theorem C5_schema_amended_witness :
    (∀ kv ∈ [("Date", Cell.str "01/07/2025")], kv.1 ∈ Ledger.HEADERS) ∧
      (Ledger._upsert "a.png" [("Date", Cell.str "01/07/2025")]
        ⟨Ledger.HEADERS, [Ledger.plainRow "a.png" Cell.empty]⟩).cols = Ledger.HEADERS :=
  ⟨by decide,
   C5_schema_amended ⟨Ledger.HEADERS, [Ledger.plainRow "a.png" Cell.empty]⟩ "a.png"
     [("Date", Cell.str "01/07/2025")] (by decide)⟩

end Finance

namespace Finance.Ledger

theorem contains_mem {l : List String} {c : String} (h : l.contains c = true) : c ∈ l := by
  simpa using h

theorem aligned_mk (cols : List String) (rows : List (List Cell))
    (h : (rows.all fun r => r.length = cols.length) = true) : Aligned ⟨cols, rows⟩ := by
  intro j hj
  have hm : rows.getD j [] ∈ rows := by
    rw [List.getD_eq_getElem rows [] hj]
    exact List.getElem_mem hj
  have := List.all_eq_true.mp h _ hm
  exact of_decide_eq_true this

theorem save_finalize_read (M t : Table) (j : Nat) (pre : List String)
    (hMcols : M.cols = HEADERS ++ pre)
    (hread : ∀ h ∈ HEADERS, getCellN M.cols (M.rows.getD j []) h =
      getCellN t.cols (t.rows.getD j []) h)
    (hpers : rowPersisted t.cols (t.rows.getD j []))
    {c : String} (hc : c ∈ HEADERS) :
    getCellN (_save_with_excel_format (_finalize_numbers M)).cols
        ((_save_with_excel_format (_finalize_numbers M)).rows.getD j []) c =
      getCellN t.cols (t.rows.getD j []) c := by
  by_cases hcOF : c = "Open File"
  · subst hcOF
    have hoi : colIdx (_finalize_numbers M).cols "Open File" = some 14 := by
      rw [finalize_cols, hMcols]
      exact colIdx_append_left _ (by decide)
    have hfi : colIdx (_finalize_numbers M).cols "Filename" = some 12 := by
      rw [finalize_cols, hMcols]
      exact colIdx_append_left _ (by decide)
    have hFfin : getCellN (_finalize_numbers M).cols
        ((_finalize_numbers M).rows.getD j []) "Filename" =
        getCellN t.cols (t.rows.getD j []) "Filename" := by
      rw [finalize_read,
        if_neg (show ¬NUMCOLS.contains "Filename" = true by decide)]
      exact hread "Filename" (by decide)
    have hOfin : getCellN (_finalize_numbers M).cols
        ((_finalize_numbers M).rows.getD j []) "Open File" =
        getCellN t.cols (t.rows.getD j []) "Open File" := by
      rw [finalize_read,
        if_neg (show ¬NUMCOLS.contains "Open File" = true by decide)]
      exact hread "Open File" (by decide)
    rw [save_read_openfile (finalize_aligned M) j hoi hfi, hFfin, hOfin]
    by_cases htr : truthy (getCellN t.cols (t.rows.getD j []) "Filename")
    · rw [if_pos htr, (hpers.2 htr).symm]
    · rw [if_neg htr]
  · rw [save_read_other _ _ hcOF, finalize_read, hread c hc]
    by_cases hn : NUMCOLS.contains c
    · rw [if_pos hn, hpers.1 c (contains_mem hn)]
    · rw [if_neg hn]

end Finance.Ledger

namespace Finance

open Ledger

/-- C6, amended: in the matched-row branch, a field of the update record that
carries no non-blank value never changes the row's cell under that field,
provided the cell is outside the link column `Open File` and — if the field is
one of the four numeric columns — the stored cell is a fixed point of the
coerce-and-round pass (as every pipeline-written numeric cell is). -/
theorem C6_overwrite_amended (t : Ledger.Table) (key : String)
    (payload : List (String × Ledger.Cell)) (c : String) (i : Nat)
    (ht : t.cols = Ledger.HEADERS) (ha : Ledger.Aligned t)
    (hf : Ledger.findRowIdx (Ledger._ensure_headers t) key = some i)
    (hc : c ∈ Ledger.HEADERS) (hcOF : c ≠ "Open File")
    (heff : Ledger.effVal payload c = none)
    (hstable : Ledger.NUMCOLS.contains c = true →
      Ledger.finalizeCell (Ledger.getCellN t.cols (t.rows.getD i []) c) =
        Ledger.getCellN t.cols (t.rows.getD i []) c) :
    Ledger.getCellN (Ledger._upsert key payload t).cols
        ((Ledger._upsert key payload t).rows.getD i []) c =
      Ledger.getCellN t.cols (t.rows.getD i []) c := by
  have hi : i < t.rows.length := by
    have := Ledger.findIdx0_lt hf
    rw [Ledger.ensure_len] at this
    exact this
  have hi2 : i < (Ledger._ensure_headers t).rows.length := by
    rw [Ledger.ensure_len]; exact hi
  rw [Ledger.upsert_eq_some payload hf]
  rw [Ledger.save_read_other _ _ hcOF, Ledger.finalize_read]
  have hm : Ledger.getCellN (Ledger.applyPayloadEx (Ledger._ensure_headers t) i
        payload).cols
      ((Ledger.applyPayloadEx (Ledger._ensure_headers t) i payload).rows.getD i []) c =
      Ledger.getCellN t.cols (t.rows.getD i []) c := by
    rw [Ledger.applyPayloadEx_read_self payload (Ledger.ensure_aligned t) hi2 c]
    simp only [heff]
    rw [Ledger.ensure_cols]
    exact Ledger.ensure_read_mem t hi hc (ht ▸ hc)
  rw [hm]
  by_cases hn : Ledger.NUMCOLS.contains c
  · rw [if_pos hn, hstable hn]
  · rw [if_neg hn]

/-- C6 witness: the amended no-erase theorem on a one-row ledger whose `Date`
cell holds text, with an update record whose `Date` value is blank. -/
theorem C6_overwrite_amended_witness :
    (⟨Ledger.HEADERS, [Ledger.plainRow "a.png" Cell.empty]⟩ : Ledger.Table).cols =
        Ledger.HEADERS ∧
      Ledger.Aligned ⟨Ledger.HEADERS, [Ledger.plainRow "a.png" Cell.empty]⟩ ∧
      Ledger.findRowIdx
          (Ledger._ensure_headers ⟨Ledger.HEADERS, [Ledger.plainRow "a.png" Cell.empty]⟩)
          "a.png" = some 0 ∧
      Ledger.effVal [("Date", Cell.str "")] "Date" = none ∧
      Ledger.getCellN
          (Ledger._upsert "a.png" [("Date", Cell.str "")]
            ⟨Ledger.HEADERS, [Ledger.plainRow "a.png" Cell.empty]⟩).cols
          ((Ledger._upsert "a.png" [("Date", Cell.str "")]
            ⟨Ledger.HEADERS, [Ledger.plainRow "a.png" Cell.empty]⟩).rows.getD 0 []) "Date" =
        Ledger.getCellN Ledger.HEADERS (Ledger.plainRow "a.png" Cell.empty) "Date" :=
  ⟨by decide, Ledger.aligned_mk _ _ (by decide), by decide, by decide,
   C6_overwrite_amended ⟨Ledger.HEADERS, [Ledger.plainRow "a.png" Cell.empty]⟩ "a.png"
     [("Date", Cell.str "")] "Date" 0 (by decide)
     (Ledger.aligned_mk _ _ (by decide)) (by decide) (by decide) (by decide)
     (by decide) (by decide)⟩

/-- C7, amended: an upsert leaves every schema cell of a row whose `Filename`
differs from the key unchanged, provided the dataset carries the fixed schema
and the row is in the pipeline's own persisted form (numeric cells are fixed
points of the coerce-and-round pass and a truthy filename carries the `"Open"`
link text). -/
theorem C7_frame_amended (t : Ledger.Table) (key : String)
    (payload : List (String × Ledger.Cell)) (j : Nat)
    (ht : t.cols = Ledger.HEADERS) (ha : Ledger.Aligned t)
    (hj : j < t.rows.length)
    (hfil : Ledger.getCellN t.cols (t.rows.getD j []) "Filename" ≠ Cell.str key)
    (hpers : Ledger.rowPersisted t.cols (t.rows.getD j [])) :
    ∀ c ∈ Ledger.HEADERS,
      Ledger.getCellN (Ledger._upsert key payload t).cols
          ((Ledger._upsert key payload t).rows.getD j []) c =
        Ledger.getCellN t.cols (t.rows.getD j []) c := by
  intro c hc
  have hens : ∀ h ∈ Ledger.HEADERS,
      Ledger.getCellN Ledger.HEADERS ((Ledger._ensure_headers t).rows.getD j []) h =
        Ledger.getCellN t.cols (t.rows.getD j []) h :=
    fun h hm => Ledger.ensure_read_mem t hj hm (ht ▸ hm)
  have hj2 : j < (Ledger._ensure_headers t).rows.length := by
    rw [Ledger.ensure_len]; exact hj
  cases hfind : Ledger.findRowIdx (Ledger._ensure_headers t) key with
  | some i =>
    have hji : j ≠ i := by
      intro hh
      subst hh
      have hspec := (Ledger.findRowIdx_some_spec hfind).2.1
      rw [Ledger.ensure_cols] at hspec
      rw [hens "Filename" (by decide)] at hspec
      exact hfil hspec
    rw [Ledger.upsert_eq_some payload hfind]
    refine Ledger.save_finalize_read _ t j (Ledger.extrasRel Ledger.HEADERS payload)
      ?_ ?_ hpers hc
    · rw [Ledger.applyPayloadEx_cols, Ledger.ensure_cols]
    · intro h hm
      rw [Ledger.applyPayloadEx_read_other payload (Ledger.ensure_aligned t) hji h]
      rw [Ledger.ensure_cols]
      exact hens h hm
  | none =>
    rw [Ledger.upsert_eq_none payload hfind]
    refine Ledger.save_finalize_read _ t j
      (((Ledger.newRowDict key payload).map Prod.fst).filter fun k =>
        !Ledger.HEADERS.contains k) ?_ ?_ hpers hc
    · rw [Ledger.concatRow_cols, Ledger.ensure_cols]
    · intro h hm
      rw [Ledger.concatRow_read_old (Ledger.ensure_aligned t) _ hj2 h]
      rw [Ledger.ensure_cols, if_pos hm]
      exact hens h hm

/-- C7 witness: the amended frame theorem on a two-row ledger, upserting key
`b.png` and checking every schema cell of the unrelated `a.png` row. -/
theorem C7_frame_amended_witness :
    (⟨Ledger.HEADERS, [Ledger.plainRow "a.png" Cell.empty,
        Ledger.plainRow "b.png" Cell.empty]⟩ : Ledger.Table).cols = Ledger.HEADERS ∧
      (0 : Nat) < 2 ∧
      Ledger.getCellN Ledger.HEADERS (Ledger.plainRow "a.png" Cell.empty) "Filename" ≠
        Cell.str "b.png" ∧
      Ledger.rowPersisted Ledger.HEADERS (Ledger.plainRow "a.png" Cell.empty) ∧
      ∀ c ∈ Ledger.HEADERS,
        Ledger.getCellN
            (Ledger._upsert "b.png" [("Date", Cell.str "01/07/2025")]
              ⟨Ledger.HEADERS, [Ledger.plainRow "a.png" Cell.empty,
                Ledger.plainRow "b.png" Cell.empty]⟩).cols
            ((Ledger._upsert "b.png" [("Date", Cell.str "01/07/2025")]
              ⟨Ledger.HEADERS, [Ledger.plainRow "a.png" Cell.empty,
                Ledger.plainRow "b.png" Cell.empty]⟩).rows.getD 0 []) c =
          Ledger.getCellN Ledger.HEADERS (Ledger.plainRow "a.png" Cell.empty) c :=
  ⟨by decide, by decide, by decide, by decide,
   C7_frame_amended ⟨Ledger.HEADERS, [Ledger.plainRow "a.png" Cell.empty,
       Ledger.plainRow "b.png" Cell.empty]⟩ "b.png" [("Date", Cell.str "01/07/2025")] 0
     (by decide) (Ledger.aligned_mk _ _ (by decide)) (by decide) (by decide) (by decide)⟩

end Finance

namespace Finance.Ledger

theorem mem_contains {l : List String} {c : String} (h : c ∈ l) : l.contains c = true := by
  simpa using h

theorem roundHalfEven_intCast (n : ℤ) : roundHalfEven (n : ℚ) = n := by
  unfold roundHalfEven
  simp only [Int.floor_intCast, sub_self]
  rw [if_pos (by norm_num)]

theorem round2_round2 (x : ℚ) : round2 (round2 x) = round2 x := by
  unfold round2
  have h1 : ((roundHalfEven (x * 100) : ℚ) / 100) * 100 =
      ((roundHalfEven (x * 100) : ℤ) : ℚ) := by
    field_simp
  rw [h1, roundHalfEven_intCast]

theorem finalizeCell_idem (v : Cell) : finalizeCell (finalizeCell v) = finalizeCell v := by
  cases v with
  | empty => rfl
  | num q =>
    show Cell.num (round2 (round2 q)) = Cell.num (round2 q)
    rw [round2_round2]
  | str s =>
    have h1 : finalizeCell (Cell.str s) =
        match parseFloat s with
        | some q => Cell.num (round2 q)
        | none => Cell.empty := rfl
    rw [h1]
    cases hp : parseFloat s with
    | none => simp only [hp]; rfl
    | some q =>
      simp only [hp]
      show Cell.num (round2 (round2 q)) = Cell.num (round2 q)
      rw [round2_round2]

theorem list_ext_getD {α : Type} (d : α) {l1 l2 : List α} (hl : l1.length = l2.length)
    (h : ∀ j, j < l2.length → l1.getD j d = l2.getD j d) : l1 = l2 := by
  apply List.ext_getElem hl
  intro i h1 h2
  have := h i h2
  rwa [List.getD_eq_getElem _ d h1, List.getD_eq_getElem _ d h2] at this

theorem table_ext {t1 t2 : Table} (hc : t1.cols = t2.cols) (hn : t2.cols.Nodup)
    (ha1 : Aligned t1) (ha2 : Aligned t2) (hl : t1.rows.length = t2.rows.length)
    (hr : ∀ j, j < t2.rows.length → ∀ c ∈ t2.cols,
      getCellN t1.cols (t1.rows.getD j []) c = getCellN t2.cols (t2.rows.getD j []) c) :
    t1 = t2 := by
  obtain ⟨c1, r1⟩ := t1
  obtain ⟨c2, r2⟩ := t2
  simp only at hc hn ha1 ha2 hl hr
  subst hc
  simp only [Table.mk.injEq, true_and]
  apply list_ext_getD ([] : List Cell) hl
  intro j hj
  apply list_ext_getD Cell.empty
  · rw [ha1 j (by rw [hl]; exact hj), ha2 j hj]
  · intro i hi
    have hi2 : i < c1.length := by
      rw [← ha2 j hj]
      exact hi
    have hcmem : c1.getD i "" ∈ c1 := by
      rw [List.getD_eq_getElem c1 "" hi2]
      exact List.getElem_mem hi2
    have hidx := colIdx_self_nodup hn hi2
    have := hr j hj (c1.getD i "") hcmem
    rwa [getCellN_some hidx, getCellN_some hidx] at this

theorem headers_extras_nodup (p : List (String × Cell)) :
    (HEADERS ++ extrasRel HEADERS p).Nodup := by
  rw [List.nodup_append]
  exact ⟨HEADERS_nodup, extrasRel_nodup p HEADERS,
    fun a ha1 ha2 => extrasRel_not_mem ha2 ha1⟩

theorem upsert_aligned (key : String) (p : List (String × Cell)) (t : Table) :
    Aligned (_upsert key p t) := by
  unfold _upsert
  exact save_aligned (finalize_aligned _)

theorem upsert_rows_len_some {t : Table} {key : String} {i : Nat}
    (p : List (String × Cell)) (hf : findRowIdx (_ensure_headers t) key = some i) :
    (_upsert key p t).rows.length = t.rows.length := by
  rw [upsert_eq_some p hf, save_rows_len, finalize_rows_len, applyPayloadEx_rows_len,
    ensure_len]

theorem upsert_rows_len_none {t : Table} {key : String}
    (p : List (String × Cell)) (hf : findRowIdx (_ensure_headers t) key = none) :
    (_upsert key p t).rows.length = t.rows.length + 1 := by
  rw [upsert_eq_none p hf, save_rows_len, finalize_rows_len, concatRow_rows_len,
    ensure_len]

theorem concat_newRow_cols (t : Table) (key : String) (p : List (String × Cell)) :
    (concatRow (_ensure_headers t) (newRowDict key p)).cols =
      HEADERS ++ extrasRel HEADERS p := by
  have hfe : (extrasOf p).filter (fun k => !HEADERS.contains k) = extrasOf p := by
    apply List.filter_eq_self.mpr
    intro a ha2
    have hnm : a ∉ HEADERS := extrasRel_not_mem ha2
    simp [hnm]
  rw [concatRow_cols, ensure_cols, newRowDict_keys, List.filter_append]
  rw [show HEADERS.filter (fun k => !HEADERS.contains k) = [] from by decide,
    List.nil_append, hfe]
  rfl

theorem read_save_finalize_other (M : Table) (j : Nat) {c : String}
    (hcOF : c ≠ "Open File") :
    getCellN (_save_with_excel_format (_finalize_numbers M)).cols
        ((_save_with_excel_format (_finalize_numbers M)).rows.getD j []) c =
      finalCellAt c (getCellN M.cols (M.rows.getD j []) c) := by
  rw [save_read_other _ _ hcOF, finalize_read]
  rfl

theorem read_save_finalize_openfile (M : Table) {pre : List String}
    (hM : M.cols = HEADERS ++ pre) (j : Nat) :
    getCellN (_save_with_excel_format (_finalize_numbers M)).cols
        ((_save_with_excel_format (_finalize_numbers M)).rows.getD j []) "Open File" =
      if truthy (getCellN M.cols (M.rows.getD j []) "Filename") then Cell.str "Open"
      else getCellN M.cols (M.rows.getD j []) "Open File" := by
  have hoi : colIdx (_finalize_numbers M).cols "Open File" = some 14 := by
    rw [finalize_cols, hM]
    exact colIdx_append_left _ (by decide)
  have hfi : colIdx (_finalize_numbers M).cols "Filename" = some 12 := by
    rw [finalize_cols, hM]
    exact colIdx_append_left _ (by decide)
  have hFfin : getCellN (_finalize_numbers M).cols
      ((_finalize_numbers M).rows.getD j []) "Filename" =
      getCellN M.cols (M.rows.getD j []) "Filename" := by
    rw [finalize_read, if_neg (show ¬NUMCOLS.contains "Filename" = true by decide)]
  have hOfin : getCellN (_finalize_numbers M).cols
      ((_finalize_numbers M).rows.getD j []) "Open File" =
      getCellN M.cols (M.rows.getD j []) "Open File" := by
    rw [finalize_read, if_neg (show ¬NUMCOLS.contains "Open File" = true by decide)]
  rw [save_read_openfile (finalize_aligned M) j hoi hfi, hFfin, hOfin]

theorem finalCellAt_id {c : String} (hc : ¬NUMCOLS.contains c = true) (x : Cell) :
    finalCellAt c x = x := by
  unfold finalCellAt
  rw [if_neg hc]

theorem saved_rowPersisted (M : Table) {pre : List String}
    (hM : M.cols = HEADERS ++ pre) (j : Nat) :
    rowPersisted (_save_with_excel_format (_finalize_numbers M)).cols
      ((_save_with_excel_format (_finalize_numbers M)).rows.getD j []) := by
  constructor
  · intro c hcmem
    have hcOF : c ≠ "Open File" := by
      simp only [NUMCOLS, List.mem_cons, List.not_mem_nil, or_false] at hcmem
      rcases hcmem with rfl | rfl | rfl | rfl <;> decide
    rw [read_save_finalize_other M j hcOF]
    unfold finalCellAt
    rw [if_pos (mem_contains hcmem)]
    exact finalizeCell_idem _
  · intro htr
    rw [read_save_finalize_other M j
      (show ("Filename" : String) ≠ "Open File" by decide)] at htr
    rw [finalCellAt_id (show ¬NUMCOLS.contains "Filename" = true by decide)] at htr
    rw [read_save_finalize_openfile M hM j, if_pos htr]

end Finance.Ledger

namespace Finance.Ledger

theorem upsert_fixed (key : String) (p : List (String × Cell)) (u : Table)
    (hkey : key ≠ "")
    (hfnv : ∀ v, effVal p "Filename" = some v → v = Cell.str key)
    (hcols : u.cols = HEADERS ++ extrasRel HEADERS p)
    (hal : Aligned u)
    (i : Nat) (hi : i < u.rows.length)
    (hmatch : getCellN u.cols (u.rows.getD i []) "Filename" = Cell.str key)
    (hbef : ∀ j, j < i → getCellN u.cols (u.rows.getD j []) "Filename" ≠ Cell.str key)
    (hOpen : getCellN u.cols (u.rows.getD i []) "Open File" = Cell.str "Open")
    (hval : ∀ c, c ≠ "Open File" → ∀ v, effVal p c = some v →
      getCellN u.cols (u.rows.getD i []) c = finalCellAt c v)
    (hrows : ∀ j, j < u.rows.length → rowPersisted u.cols (u.rows.getD j []))
    (hextra : ∀ j, j < u.rows.length → j ≠ i → ∀ c ∈ extrasRel HEADERS p,
      getCellN u.cols (u.rows.getD j []) c = Cell.empty) :
    _upsert key p u = u := by
  have hmemH : ∀ h2 ∈ HEADERS, h2 ∈ u.cols := by
    intro h2 hm
    rw [hcols]
    exact List.mem_append_left _ hm
  have hens_read : ∀ j, j < u.rows.length → ∀ h2 ∈ HEADERS,
      getCellN HEADERS ((_ensure_headers u).rows.getD j []) h2 =
        getCellN u.cols (u.rows.getD j []) h2 :=
    fun j hj h2 hm => ensure_read_mem u hj hm (hmemH h2 hm)
  have hfind : findRowIdx (_ensure_headers u) key = some i := by
    apply findRowIdx_of
    · rw [ensure_len]; exact hi
    · rw [ensure_cols, hens_read i hi "Filename" (by decide)]
      exact hmatch
    · intro j hj
      have hjlen : j < u.rows.length := lt_trans hj hi
      rw [ensure_cols, hens_read j hjlen "Filename" (by decide)]
      exact hbef j hj
  rw [upsert_eq_some p hfind]
  have hMcols : (applyPayloadEx (_ensure_headers u) i p).cols =
      HEADERS ++ extrasRel HEADERS p := by
    rw [applyPayloadEx_cols, ensure_cols]
  have hi2 : i < (_ensure_headers u).rows.length := by
    rw [ensure_len]; exact hi
  have hensal : Aligned (_ensure_headers u) := ensure_aligned u
  have hMF : getCellN (applyPayloadEx (_ensure_headers u) i p).cols
      ((applyPayloadEx (_ensure_headers u) i p).rows.getD i []) "Filename" =
      Cell.str key := by
    rw [applyPayloadEx_read_self p hensal hi2 "Filename"]
    cases he : effVal p "Filename" with
    | some v =>
      simp only [he]
      exact hfnv v he
    | none =>
      simp only [he]
      rw [ensure_cols, hens_read i hi "Filename" (by decide)]
      exact hmatch
  apply table_ext
  · rw [save_cols, finalize_cols, hMcols, hcols]
  · rw [hcols]
    exact headers_extras_nodup p
  · exact save_aligned (finalize_aligned _)
  · exact hal
  · rw [save_rows_len, finalize_rows_len, applyPayloadEx_rows_len, ensure_len]
  · intro j hj c hcmem
    have hcmem2 : c ∈ HEADERS ++ extrasRel HEADERS p := by
      rw [← hcols]; exact hcmem
    rcases List.mem_append.mp hcmem2 with hcH | hcE
    · by_cases hji : j = i
      · subst hji
        by_cases hcOF : c = "Open File"
        · subst hcOF
          have htr : truthy (Cell.str key) = true := by simp [truthy, hkey]
          rw [read_save_finalize_openfile _ hMcols j, hMF, if_pos htr]
          exact hOpen.symm
        · rw [read_save_finalize_other _ j hcOF]
          rw [applyPayloadEx_read_self p hensal hi2 c]
          cases he : effVal p c with
          | some v =>
            simp only [he]
            exact (hval c hcOF v he).symm
          | none =>
            simp only [he]
            rw [ensure_cols, hens_read j hj c hcH]
            unfold finalCellAt
            by_cases hn : NUMCOLS.contains c = true
            · rw [if_pos hn]
              exact (hrows j hj).1 c (contains_mem hn)
            · rw [if_neg hn]
      · exact save_finalize_read _ u j (extrasRel HEADERS p) hMcols
          (fun h2 hm => by
            rw [applyPayloadEx_read_other p hensal hji h2, ensure_cols]
            exact hens_read j hj h2 hm)
          (hrows j hj) hcH
    · have hcnotH : c ∉ HEADERS := extrasRel_not_mem hcE
      have hcOF : c ≠ "Open File" := fun hh => hcnotH (by rw [hh]; decide)
      have hcnotNUM : ¬NUMCOLS.contains c = true := by
        intro hcon
        have hsub : ∀ x ∈ NUMCOLS, x ∈ HEADERS := by decide
        exact hcnotH (hsub c (contains_mem hcon))
      rw [read_save_finalize_other _ j hcOF, finalCellAt_id hcnotNUM]
      by_cases hji : j = i
      · subst hji
        rcases mem_extras_effVal hcE with ⟨v, he⟩
        rw [applyPayloadEx_read_self p hensal hi2 c]
        simp only [he]
        rw [hval c hcOF v he, finalCellAt_id hcnotNUM]
      · rw [applyPayloadEx_read_other p hensal hji c, ensure_cols,
          getCellN_not_mem hcnotH, hextra j hj hji c hcE]

end Finance.Ledger

namespace Finance.Ledger

theorem upsert_post (key : String) (p : List (String × Cell)) (t : Table)
    (hkey : key ≠ "")
    (hfnv : ∀ v, effVal p "Filename" = some v → v = Cell.str key) :
    ∃ i, i < (_upsert key p t).rows.length ∧
      getCellN (_upsert key p t).cols ((_upsert key p t).rows.getD i []) "Filename" =
        Cell.str key ∧
      (∀ j, j < i →
        getCellN (_upsert key p t).cols ((_upsert key p t).rows.getD j []) "Filename" ≠
          Cell.str key) ∧
      getCellN (_upsert key p t).cols ((_upsert key p t).rows.getD i []) "Open File" =
        Cell.str "Open" ∧
      (∀ c, c ≠ "Open File" → ∀ v, effVal p c = some v →
        getCellN (_upsert key p t).cols ((_upsert key p t).rows.getD i []) c =
          finalCellAt c v) ∧
      (∀ j, j < (_upsert key p t).rows.length →
        rowPersisted (_upsert key p t).cols ((_upsert key p t).rows.getD j [])) ∧
      (∀ j, j < (_upsert key p t).rows.length → j ≠ i → ∀ c ∈ extrasRel HEADERS p,
        getCellN (_upsert key p t).cols ((_upsert key p t).rows.getD j []) c =
          Cell.empty) := by
  have htr : truthy (Cell.str key) = true := by simp [truthy, hkey]
  have hsub : ∀ x ∈ NUMCOLS, x ∈ HEADERS := by decide
  cases hf : findRowIdx (_ensure_headers t) key with
  | some i0 =>
    have hensal : Aligned (_ensure_headers t) := ensure_aligned t
    have hlen0 : i0 < (_ensure_headers t).rows.length := findIdx0_lt hf
    have hMcols : (applyPayloadEx (_ensure_headers t) i0 p).cols =
        HEADERS ++ extrasRel HEADERS p := by
      rw [applyPayloadEx_cols, ensure_cols]
    have hspec := findRowIdx_some_spec hf
    have hMF : getCellN (applyPayloadEx (_ensure_headers t) i0 p).cols
        ((applyPayloadEx (_ensure_headers t) i0 p).rows.getD i0 []) "Filename" =
        Cell.str key := by
      rw [applyPayloadEx_read_self p hensal hlen0 "Filename"]
      cases he : effVal p "Filename" with
      | some v =>
        simp only [he]
        exact hfnv v he
      | none =>
        simp only [he]
        exact hspec.2.1
    refine ⟨i0, ?_, ?_, ?_, ?_, ?_, ?_, ?_⟩
    · rw [upsert_rows_len_some p hf, ← ensure_len]
      exact hlen0
    · rw [upsert_eq_some p hf,
        read_save_finalize_other _ i0 (show ("Filename" : String) ≠ "Open File" by decide),
        finalCellAt_id (show ¬NUMCOLS.contains "Filename" = true by decide), hMF]
    · intro j hj
      rw [upsert_eq_some p hf,
        read_save_finalize_other _ j (show ("Filename" : String) ≠ "Open File" by decide),
        finalCellAt_id (show ¬NUMCOLS.contains "Filename" = true by decide),
        applyPayloadEx_read_other p hensal (Nat.ne_of_lt hj) "Filename"]
      exact hspec.2.2 j hj
    · rw [upsert_eq_some p hf, read_save_finalize_openfile _ hMcols i0, hMF, if_pos htr]
    · intro c hcOF v he
      rw [upsert_eq_some p hf, read_save_finalize_other _ i0 hcOF,
        applyPayloadEx_read_self p hensal hlen0 c]
      simp only [he]
    · intro j hj
      rw [upsert_eq_some p hf]
      exact saved_rowPersisted _ hMcols j
    · intro j hj hjne c hcE
      have hcnotH : c ∉ HEADERS := extrasRel_not_mem hcE
      have hcOF : c ≠ "Open File" := fun hh => hcnotH (by rw [hh]; decide)
      have hcnotNUM : ¬NUMCOLS.contains c = true := by
        intro hcon
        exact hcnotH (hsub c (contains_mem hcon))
      rw [upsert_eq_some p hf, read_save_finalize_other _ j hcOF,
        finalCellAt_id hcnotNUM, applyPayloadEx_read_other p hensal hjne c, ensure_cols,
        getCellN_not_mem hcnotH]
  | none =>
    have hensal : Aligned (_ensure_headers t) := ensure_aligned t
    have hlen : (_upsert key p t).rows.length = t.rows.length + 1 :=
      upsert_rows_len_none p hf
    have hMcols := concat_newRow_cols t key p
    have hMnew : ∀ c : String,
        getCellN (concatRow (_ensure_headers t) (newRowDict key p)).cols
            ((concatRow (_ensure_headers t) (newRowDict key p)).rows.getD
              t.rows.length []) c =
          match (newRowDict key p).lookup c with
          | some v => v
          | none => Cell.empty := by
      intro c
      have h0 := concatRow_read_new (_ensure_headers t) (newRowDict key p) c
      rw [ensure_len] at h0
      exact h0
    have hMF : getCellN (concatRow (_ensure_headers t) (newRowDict key p)).cols
        ((concatRow (_ensure_headers t) (newRowDict key p)).rows.getD
          t.rows.length []) "Filename" = Cell.str key := by
      rw [hMnew "Filename", newRowDict_lookup]
      cases he : effVal p "Filename" with
      | some v =>
        simp only [he]
        exact hfnv v he
      | none =>
        simp only [he]
        rw [if_neg (show ¬("Filename" = "Source") by decide),
          if_neg (show ¬("Filename" = "Open File") by decide)]
        simp
    have hMold : ∀ j, j < t.rows.length → ∀ c : String,
        getCellN (concatRow (_ensure_headers t) (newRowDict key p)).cols
            ((concatRow (_ensure_headers t) (newRowDict key p)).rows.getD j []) c =
          if c ∈ HEADERS then
            getCellN (_ensure_headers t).cols ((_ensure_headers t).rows.getD j []) c
          else Cell.empty := by
      intro j hj c
      have hj2 : j < (_ensure_headers t).rows.length := by
        rw [ensure_len]; exact hj
      have h0 := concatRow_read_old hensal (newRowDict key p) hj2 c
      rw [h0, ensure_cols]
    refine ⟨t.rows.length, ?_, ?_, ?_, ?_, ?_, ?_, ?_⟩
    · rw [hlen]
      omega
    · rw [upsert_eq_none p hf,
        read_save_finalize_other _ _ (show ("Filename" : String) ≠ "Open File" by decide),
        finalCellAt_id (show ¬NUMCOLS.contains "Filename" = true by decide), hMF]
    · intro j hj
      rw [upsert_eq_none p hf,
        read_save_finalize_other _ j (show ("Filename" : String) ≠ "Open File" by decide),
        finalCellAt_id (show ¬NUMCOLS.contains "Filename" = true by decide),
        hMold j hj "Filename", if_pos (show ("Filename" : String) ∈ HEADERS by decide)]
      have hspecN := findRowIdx_none_spec hf
      have hj2 : j < (_ensure_headers t).rows.length := by
        rw [ensure_len]; exact hj
      exact hspecN j hj2
    · rw [upsert_eq_none p hf, read_save_finalize_openfile _ hMcols t.rows.length, hMF,
        if_pos htr]
    · intro c hcOF v he
      rw [upsert_eq_none p hf, read_save_finalize_other _ _ hcOF, hMnew c,
        newRowDict_lookup]
      simp only [he]
    · intro j hj
      rw [upsert_eq_none p hf]
      exact saved_rowPersisted _ hMcols j
    · intro j hj hjne c hcE
      have hcnotH : c ∉ HEADERS := extrasRel_not_mem hcE
      have hcOF : c ≠ "Open File" := fun hh => hcnotH (by rw [hh]; decide)
      have hcnotNUM : ¬NUMCOLS.contains c = true := by
        intro hcon
        exact hcnotH (hsub c (contains_mem hcon))
      have hjlt : j < t.rows.length := by
        rw [hlen] at hj
        omega
      rw [upsert_eq_none p hf, read_save_finalize_other _ j hcOF,
        finalCellAt_id hcnotNUM, hMold j hjlt c, if_neg hcnotH]

end Finance.Ledger

namespace Finance

open Ledger

/-- C8, amended: an upsert is idempotent — the second application returns the
saved workbook unchanged, as a full dataset equality — whenever the filename
key is non-empty and the update record never overrides the identity column
`Filename` with a different non-blank name (blank `Filename` entries and
entries equal to the key are fine; other fields are unrestricted). -/
theorem C8_idempotence_amended (t : Ledger.Table) (key : String)
    (payload : List (String × Ledger.Cell))
    (hkey : key ≠ "")
    (hfn : ∀ v, ("Filename", v) ∈ payload →
      Ledger.isBlankVal v = true ∨ v = Cell.str key) :
    Ledger._upsert key payload (Ledger._upsert key payload t) =
      Ledger._upsert key payload t := by
  have hfnv : ∀ v, Ledger.effVal payload "Filename" = some v → v = Cell.str key := by
    intro v he
    rcases Ledger.effVal_mem he with ⟨hmem, hbl⟩
    rcases hfn v hmem with hbl2 | hv
    · rw [hbl2] at hbl
      cases hbl
    · exact hv
  obtain ⟨i, hi, hmatch, hbef, hOpen, hval, hrows, hextra⟩ :=
    Ledger.upsert_post key payload t hkey hfnv
  exact Ledger.upsert_fixed key payload (Ledger._upsert key payload t) hkey hfnv
    (Ledger.upsert_cols key payload t) (Ledger.upsert_aligned key payload t)
    i hi hmatch hbef hOpen hval hrows hextra

/-- C8 witness: the amended idempotence theorem evaluated on an empty ledger
with a `Date`/`Note` update record — the first upsert inserts the row, the
second returns the workbook unchanged. -/
theorem C8_idempotence_amended_witness :
    ("b.png" : String) ≠ "" ∧
      (∀ v, ("Filename", v) ∈
          [("Date", Cell.str "01/07/2025"), ("Note", Cell.str "lunch")] →
        Ledger.isBlankVal v = true ∨ v = Cell.str "b.png") ∧
      Ledger._upsert "b.png" [("Date", Cell.str "01/07/2025"), ("Note", Cell.str "lunch")]
          (Ledger._upsert "b.png"
            [("Date", Cell.str "01/07/2025"), ("Note", Cell.str "lunch")]
            ⟨Ledger.HEADERS, []⟩) =
        Ledger._upsert "b.png"
          [("Date", Cell.str "01/07/2025"), ("Note", Cell.str "lunch")]
          ⟨Ledger.HEADERS, []⟩ :=
  ⟨by decide, by intro v hv; simp at hv,
   C8_idempotence_amended ⟨Ledger.HEADERS, []⟩ "b.png"
     [("Date", Cell.str "01/07/2025"), ("Note", Cell.str "lunch")] (by decide)
     (by intro v hv; simp at hv)⟩

end Finance
